import Mathlib

/-!
Verification development for the edgewise graph library (src/lib.rs).

The Rust code is shallowly embedded as executable Lean functions.
Machine integers (u32 node ids, u32 weights and distances) are modelled as
Nat, with overflow made explicit via the bound u32Max where the Rust code
uses checked arithmetic.  Fallible Rust code (Result, index bounds checks
that can abort, loops) is modelled with an explicit Outcome type: normal
return, typed GraphError return, abort on an out-of-range index, and an
out-of-fuel sentinel for the fuelled loop bodies (proved unreachable for
the fuel amounts used).
-/

namespace Edgewise

/-- Maximum value of a 32-bit unsigned integer, the distance/weight type. -/
def u32Max : Nat := 4294967295

/-- GraphError from src/lib.rs lines 10-21 (the source spells the second
constructor DistanveOverflow; the typo is kept). -/
inductive GraphError where
  | OutOfBoundsNode (node : Nat)
  | DistanveOverflow (node_from node_to current_distance edge_weight : Nat)
  deriving DecidableEq, Repr

/-- Result of running one of the library calls: a value, a typed error, an
abort caused by an out-of-range index (Rust slice indexing aborts the
program there), or fuel exhaustion (an artifact of the fuelled embedding,
proved unreachable for the fuel each entry point supplies). -/
inductive Outcome (α : Type) where
  | ok (val : α)
  | err (e : GraphError)
  | panicked
  | fuelOut
  deriving DecidableEq, Repr

/-- The weight payload of a weighted edge: Weighted(pub u32). -/
abbrev Weighted := Nat

/-- The weight payload of an unweighted edge: Unweighted(pub ()). -/
abbrev Unweighted := Unit

/-- Graph from src/lib.rs lines 54-57: an adjacency list, a vector of
vectors of (target_node, weight) pairs. -/
structure Graph (W : Type) where
  graph : List (List (Nat × W))
  deriving DecidableEq

/-- Graph::new (lib.rs 60-67): construction asserts that the node count
fits in u32; modelled as returning none when the assertion fails. -/
def Graph.new (g : List (List (Nat × W))) : Option (Graph W) :=
  if g.length ≤ u32Max then some ⟨g⟩ else none

/-- Graph::edges (lib.rs 70-75): enumerate (source, target, weight)
triples in adjacency-list order.  The Rust cast of the outer index to u32
is the identity because construction caps the node count at u32Max. -/
def Graph.edges (g : Graph W) : List (Nat × Nat × W) :=
  (g.graph.enum.map (fun p => p.2.map (fun e => (p.1, e.1, e.2)))).flatten

/-- Adjacency list of a node, for specification purposes (in the Rust code
this is the slice self.graph[u] accessed through .get). -/
def Graph.adjOf (g : Graph W) (u : Nat) : List (Nat × W) :=
  (g.graph[u]?).getD []

/-- Well-formedness of the adjacency data: every target index is a valid
node.  The spec calls this the target-bound invariant. -/
def Graph.WF (g : Graph W) : Prop :=
  ∀ l ∈ g.graph, ∀ e ∈ l, e.1 < g.graph.length

instance {W : Type} (g : Graph W) : Decidable g.WF := by
  unfold Graph.WF; infer_instance

/-! ### Breadth-first traversal (lib.rs 77-101) -/

/-- Inner loop body of bfs (lib.rs 91-97): walk one adjacency list; for
every target not yet visited, mark it, append it to the visit order and to
the back of the queue.  Checking nodes_visited_lookup[n] aborts when n is
out of range, modelled by returning none. -/
def bfsScan {W : Type} : List (Nat × W) → List Bool → List Nat → List Nat →
    Option (List Bool × List Nat × List Nat)
  | [], lk, acc, q => some (lk, acc, q)
  | (n, _) :: rest, lk, acc, q =>
    match lk[n]? with
    | none => none
    | some true => bfsScan rest lk acc q
    | some false => bfsScan rest (lk.set n true) (acc ++ [n]) (q ++ [n])

/-- Main loop of bfs (lib.rs 89-99): pop the queue front; if the popped
node has an adjacency list, scan it.  The Rust while-let loop is fuelled;
fuelOut is unreachable for the fuel bfs supplies. -/
def bfsLoop (g : List (List (Nat × W))) :
    Nat → List Nat → List Bool → List Nat → Outcome (List Nat)
  | _, [], _, acc => .ok acc
  | 0, _ :: _, _, _ => .fuelOut
  | fuel + 1, node :: rest, lk, acc =>
    match g[node]? with
    | none => bfsLoop g fuel rest lk acc
    | some neigh =>
      match bfsScan neigh lk acc rest with
      | none => .panicked
      | some (lk2, acc2, q2) => bfsLoop g fuel q2 lk2 acc2

/-- Graph::bfs (lib.rs 77-101). -/
def Graph.bfs (g : Graph W) (starting_node : Nat) : Outcome (List Nat) :=
  if starting_node ≥ g.graph.length then
    .err (.OutOfBoundsNode starting_node)
  else
    bfsLoop g.graph (2 * g.graph.length + 1) [starting_node]
      ((List.replicate g.graph.length false).set starting_node true)
      [starting_node]

/-! ### Depth-first traversal (lib.rs 103-135) -/

/-- Inner scan of dfs (lib.rs 120-128): find the first not-yet-visited
target in an adjacency list.  Returns none on an out-of-range index
(abort), some none when every target is visited, some (some v) for the
first unvisited target v. -/
def dfsFind {W : Type} : List (Nat × W) → List Bool → Option (Option Nat)
  | [], _ => some none
  | (n, _) :: rest, lk =>
    match lk[n]? with
    | none => none
    | some true => dfsFind rest lk
    | some false => some (some n)

/-- Main loop of dfs (lib.rs 115-133).  The stack is a list with its head
as the top (the Rust code uses the back of a VecDeque).  When the top node
has a first unvisited neighbour, mark it, record it and push it; otherwise
pop.  When self.graph.get fails, the Rust iteration neither descends nor
pops, so the state repeats (unreachable: stack entries are valid nodes). -/
def dfsLoop (g : List (List (Nat × W))) :
    Nat → List Nat → List Bool → List Nat → Outcome (List Nat)
  | _, [], _, acc => .ok acc
  | 0, _ :: _, _, _ => .fuelOut
  | fuel + 1, node :: rest, lk, acc =>
    match g[node]? with
    | none => dfsLoop g fuel (node :: rest) lk acc
    | some neigh =>
      match dfsFind neigh lk with
      | none => .panicked
      | some none => dfsLoop g fuel rest lk acc
      | some (some v) =>
        dfsLoop g fuel (v :: node :: rest) (lk.set v true) (acc ++ [v])

/-- Graph::dfs (lib.rs 103-135). -/
def Graph.dfs (g : Graph W) (starting_node : Nat) : Outcome (List Nat) :=
  if starting_node ≥ g.graph.length then
    .err (.OutOfBoundsNode starting_node)
  else
    dfsLoop g.graph (2 * g.graph.length + 1) [starting_node]
      ((List.replicate g.graph.length false).set starting_node true)
      [starting_node]

/-! ### Dijkstra (lib.rs 162-201) -/

/-- First element with the minimum second component, the semantics of the
Rust Iterator::min_by_key call on lib.rs 175 (on ties min_by_key keeps the
first minimal element). -/
def selectMin : List (Nat × Nat) → Option (Nat × Nat)
  | [] => none
  | p :: rest =>
    match selectMin rest with
    | none => some p
    | some q => if q.2 < p.2 then some q else some p

/-- The candidate list of lib.rs 172-175: indices 0..n that are unvisited
and have a tentative distance, paired with that distance.  Every index
produced by List.range visited.length is in range, so the getD defaults
are never used. -/
def candidates (dist : List (Option Nat)) (visited : List Bool) :
    List (Nat × Nat) :=
  ((List.range visited.length).filter
      (fun i => !((visited[i]?).getD true))).filterMap
    (fun i => ((dist[i]?).getD none).map (fun d => (i, d)))

/-- Relaxation of all edges out of one node (lib.rs 178-196).  The Rust
code first evaluates current_distance.checked_add(weight) - overflow past
u32Max returns the DistanveOverflow error at once - and then indexes
nodes_distance[neighbor_node], which aborts when the target is out of
range. -/
def relaxAll (node_from current_distance : Nat) :
    List (Nat × Nat) → List (Option Nat) → Outcome (List (Option Nat))
  | [], dist => .ok dist
  | (neighbor_node, neighbor_weight) :: rest, dist =>
    if current_distance + neighbor_weight ≤ u32Max then
      match dist[neighbor_node]? with
      | none => .panicked
      | some (some neighbor_distance) =>
        if current_distance + neighbor_weight < neighbor_distance then
          relaxAll node_from current_distance rest
            (dist.set neighbor_node (some (current_distance + neighbor_weight)))
        else
          relaxAll node_from current_distance rest dist
      | some none =>
        relaxAll node_from current_distance rest
          (dist.set neighbor_node (some (current_distance + neighbor_weight)))
    else
      .err (.DistanveOverflow node_from neighbor_node current_distance
        neighbor_weight)

/-- Main loop of dijkstra (lib.rs 172-199): select the unvisited node of
minimum tentative distance, relax its outgoing edges, mark it visited;
stop when no unvisited node has a tentative distance. -/
def dijkLoop (g : List (List (Nat × Nat))) :
    Nat → List (Option Nat) → List Bool → Outcome (List (Option Nat))
  | 0, dist, visited =>
    match selectMin (candidates dist visited) with
    | none => .ok dist
    | some _ => .fuelOut
  | fuel + 1, dist, visited =>
    match selectMin (candidates dist visited) with
    | none => .ok dist
    | some (current_node, current_distance) =>
      match g[current_node]? with
      | none => dijkLoop g fuel dist (visited.set current_node true)
      | some neighbors =>
        match relaxAll current_node current_distance neighbors dist with
        | .ok dist2 => dijkLoop g fuel dist2 (visited.set current_node true)
        | .err e => .err e
        | .panicked => .panicked
        | .fuelOut => .fuelOut

/-- Graph::dijkstra (lib.rs 162-201), on weighted graphs. -/
def Graph.dijkstra (g : Graph Weighted) (starting_node : Nat) :
    Outcome (List (Option Nat)) :=
  if starting_node ≥ g.graph.length then
    .err (.OutOfBoundsNode starting_node)
  else
    dijkLoop g.graph g.graph.length
      ((List.replicate g.graph.length (none : Option Nat)).set starting_node
        (some 0))
      (List.replicate g.graph.length false)

/-! ### Test fixtures (lib.rs 280-314) -/

/-- The 6-node unweighted fixture TEST_GRAPH_UNWEIGHTED. -/
def TEST_GRAPH_UNWEIGHTED : Graph Unweighted :=
  ⟨[[(1, ()), (2, ()), (5, ())],
    [(0, ()), (5, ())],
    [(0, ())],
    [(4, ())],
    [(3, ())],
    [(0, ())]]⟩

/-- The 15-node weighted fixture TEST_GRAPH_WEIGHTED. -/
def TEST_GRAPH_WEIGHTED : Graph Weighted :=
  ⟨[[(1, 4), (2, 1)],
    [(3, 1), (4, 7)],
    [(1, 2), (3, 5), (5, 8)],
    [(6, 3)],
    [(6, 2), (7, 3)],
    [(4, 2), (8, 6)],
    [(9, 4)],
    [(6, 3), (9, 2)],
    [(7, 1), (9, 8)],
    [(5, 1)],
    [(11, 3)],
    [(12, 4)],
    [(13, 2)],
    [(10, 10)],
    [(12, 1)]]⟩

/-! ### Bookkeeping lemmas for visited tables -/

/-- Number of unvisited entries of a lookup table. -/
def countFalse (l : List Bool) : Nat := l.count false

theorem countFalse_set_true {l : List Bool} {n : Nat}
    (h : l[n]? = some false) : countFalse (l.set n true) + 1 = countFalse l := by
  induction l generalizing n with
  | nil => simp at h
  | cons b t ih =>
    cases n with
    | zero =>
      simp_all [countFalse, List.count_cons]
    | succ m =>
      simp only [List.getElem?_cons_succ] at h
      have := ih h
      simp [countFalse, List.count_cons] at *
      omega

theorem countFalse_set_le (l : List Bool) (n : Nat) :
    countFalse (l.set n true) ≤ countFalse l := by
  induction l generalizing n with
  | nil => simp [countFalse]
  | cons b t ih =>
    cases n with
    | zero => simp [countFalse, List.count_cons]
    | succ m =>
      have := ih m
      simp [countFalse, List.count_cons] at *
      omega

theorem getElem?_set_true_of_true {l : List Bool} {i n : Nat}
    (h : l[i]? = some true) : (l.set n true)[i]? = some true := by
  rcases eq_or_ne n i with rfl | hne
  · have hlt : n < l.length := (List.getElem?_eq_some.mp h).1
    simp [List.getElem?_set_eq_of_lt, hlt]
  · simp [List.getElem?_set_ne hne, h]

/-! ### Lemmas about the bfs inner scan -/

theorem bfsScan_spec {W : Type} :
    ∀ (neigh : List (Nat × W)) (lk : List Bool) (acc q : List Nat)
      (lk2 : List Bool) (acc2 q2 : List Nat),
      bfsScan neigh lk acc q = some (lk2, acc2, q2) →
      ∃ news : List Nat,
        acc2 = acc ++ news ∧ q2 = q ++ news ∧
        lk2.length = lk.length ∧
        countFalse lk2 + news.length = countFalse lk ∧
        (∀ i : Nat, lk[i]? = some true → lk2[i]? = some true) ∧
        (∀ v ∈ news, lk[v]? = some false ∧ ∃ w, (v, w) ∈ neigh) ∧
        news.Nodup ∧
        (∀ i : Nat, lk2[i]? = some true → lk[i]? = some true ∨ i ∈ news) ∧
        (∀ e ∈ neigh, lk2[e.1]? = some true) := by
  intro neigh
  induction neigh with
  | nil =>
    intro lk acc q lk2 acc2 q2 h
    simp only [bfsScan] at h
    obtain ⟨rfl, rfl, rfl⟩ : lk = lk2 ∧ acc = acc2 ∧ q = q2 := by
      simpa using h
    exact ⟨[], by simp⟩
  | cons e rest ih =>
    intro lk acc q lk2 acc2 q2 h
    obtain ⟨n, w⟩ := e
    simp only [bfsScan] at h
    cases hn : lk[n]? with
    | none => rw [hn] at h; exact absurd h (by simp)
    | some b =>
      rw [hn] at h
      cases b with
      | true =>
        obtain ⟨news, h1, h2, h3, h4, h5, h6, h6d, h7, h8⟩ :=
          ih lk acc q lk2 acc2 q2 h
        refine ⟨news, h1, h2, h3, h4, h5, ?_, h6d, ?_, ?_⟩
        · intro v hv
          obtain ⟨hf, w', hw'⟩ := h6 v hv
          exact ⟨hf, w', List.mem_cons_of_mem _ hw'⟩
        · exact h7
        · intro e he
          rcases List.mem_cons.mp he with rfl | he'
          · exact h5 n hn
          · exact h8 e he'
      | false =>
        have hlt : n < lk.length := (List.getElem?_eq_some.mp hn).1
        obtain ⟨news, h1, h2, h3, h4, h5, h6, h6d, h7, h8⟩ :=
          ih (lk.set n true) (acc ++ [n]) (q ++ [n]) lk2 acc2 q2 h
        have hset : (lk.set n true)[n]? = some true := by
          simp [List.getElem?_set_eq_of_lt, hlt]
        have hfresh : ∀ v ∈ news, v ≠ n := by
          intro v hv hvn
          have hf := (h6 v hv).1
          rw [hvn, hset] at hf
          cases hf
        refine ⟨n :: news, ?_, ?_, ?_, ?_, ?_, ?_, ?_, ?_, ?_⟩
        · simpa [List.append_assoc] using h1
        · simpa [List.append_assoc] using h2
        · simpa [List.length_set] using h3
        · have := countFalse_set_true hn
          simp only [List.length_cons]
          omega
        · intro i hi
          exact h5 i (getElem?_set_true_of_true hi)
        · intro v hv
          rcases List.mem_cons.mp hv with rfl | hv'
          · exact ⟨hn, w, List.mem_cons_self _ _⟩
          · obtain ⟨hf, w', hw'⟩ := h6 v hv'
            constructor
            · rcases eq_or_ne v n with rfl | hne
              · rw [hset] at hf; cases hf
              · rwa [List.getElem?_set_ne (Ne.symm hne)] at hf
            · exact ⟨w', List.mem_cons_of_mem _ hw'⟩
        · exact List.nodup_cons.mpr ⟨fun hmem => hfresh n hmem rfl, h6d⟩
        · intro i hi
          rcases h7 i hi with hT | hmem
          · rcases eq_or_ne i n with rfl | hne
            · exact Or.inr (List.mem_cons_self _ _)
            · rw [List.getElem?_set_ne (Ne.symm hne)] at hT
              exact Or.inl hT
          · exact Or.inr (List.mem_cons_of_mem _ hmem)
        · intro e he
          rcases List.mem_cons.mp he with rfl | he'
          · exact h5 n hset
          · exact h8 e he'

theorem bfsScan_eq_none {W : Type} :
    ∀ (neigh : List (Nat × W)) (lk : List Bool) (acc q : List Nat),
      bfsScan neigh lk acc q = none → ∃ e ∈ neigh, lk.length ≤ e.1 := by
  intro neigh
  induction neigh with
  | nil => intro lk acc q h; simp [bfsScan] at h
  | cons e rest ih =>
    intro lk acc q h
    obtain ⟨n, w⟩ := e
    simp only [bfsScan] at h
    cases hn : lk[n]? with
    | none =>
      refine ⟨(n, w), List.mem_cons_self _ _, ?_⟩
      simpa using List.getElem?_eq_none_iff.mp hn
    | some b =>
      rw [hn] at h
      cases b with
      | true =>
        obtain ⟨e', he', hb⟩ := ih lk acc q h
        exact ⟨e', List.mem_cons_of_mem _ he', hb⟩
      | false =>
        obtain ⟨e', he', hb⟩ := ih (lk.set n true) (acc ++ [n]) (q ++ [n]) h
        exact ⟨e', List.mem_cons_of_mem _ he',
          by simpa [List.length_set] using hb⟩

theorem bfsScan_isSome {W : Type} (neigh : List (Nat × W)) (lk : List Bool)
    (acc q : List Nat) (h : ∀ e ∈ neigh, e.1 < lk.length) :
    bfsScan neigh lk acc q ≠ none := by
  intro hnone
  obtain ⟨e, he, hb⟩ := bfsScan_eq_none neigh lk acc q hnone
  exact absurd (h e he) (by omega)

/-! ### Lemmas about the dfs inner scan -/

theorem dfsFind_eq_some_some {W : Type} :
    ∀ (neigh : List (Nat × W)) (lk : List Bool) (v : Nat),
      dfsFind neigh lk = some (some v) →
      lk[v]? = some false ∧ ∃ w, (v, w) ∈ neigh := by
  intro neigh
  induction neigh with
  | nil => intro lk v h; simp [dfsFind] at h
  | cons e rest ih =>
    intro lk v h
    obtain ⟨n, w⟩ := e
    simp only [dfsFind] at h
    cases hn : lk[n]? with
    | none => rw [hn] at h; cases h
    | some b =>
      rw [hn] at h
      cases b with
      | true =>
        obtain ⟨hf, w', hw'⟩ := ih lk v h
        exact ⟨hf, w', List.mem_cons_of_mem _ hw'⟩
      | false =>
        obtain rfl : n = v := by simpa using h
        exact ⟨hn, w, List.mem_cons_self _ _⟩

theorem dfsFind_eq_some_none {W : Type} :
    ∀ (neigh : List (Nat × W)) (lk : List Bool),
      dfsFind neigh lk = some none → ∀ e ∈ neigh, lk[e.1]? = some true := by
  intro neigh
  induction neigh with
  | nil => intro lk _ e he; cases he
  | cons e0 rest ih =>
    intro lk h e he
    obtain ⟨n, w⟩ := e0
    simp only [dfsFind] at h
    cases hn : lk[n]? with
    | none => rw [hn] at h; cases h
    | some b =>
      rw [hn] at h
      cases b with
      | true =>
        rcases List.mem_cons.mp he with rfl | he'
        · exact hn
        · exact ih lk h e he'
      | false => simp at h

theorem dfsFind_eq_none {W : Type} :
    ∀ (neigh : List (Nat × W)) (lk : List Bool),
      dfsFind neigh lk = none → ∃ e ∈ neigh, lk.length ≤ e.1 := by
  intro neigh
  induction neigh with
  | nil => intro lk h; simp [dfsFind] at h
  | cons e0 rest ih =>
    intro lk h
    obtain ⟨n, w⟩ := e0
    simp only [dfsFind] at h
    cases hn : lk[n]? with
    | none =>
      refine ⟨(n, w), List.mem_cons_self _ _, ?_⟩
      simpa using List.getElem?_eq_none_iff.mp hn
    | some b =>
      rw [hn] at h
      cases b with
      | true =>
        obtain ⟨e', he', hb⟩ := ih lk h
        exact ⟨e', List.mem_cons_of_mem _ he', hb⟩
      | false => simp at h

theorem dfsFind_isSome {W : Type} (neigh : List (Nat × W)) (lk : List Bool)
    (h : ∀ e ∈ neigh, e.1 < lk.length) : dfsFind neigh lk ≠ none := by
  intro hnone
  obtain ⟨e, he, hb⟩ := dfsFind_eq_none neigh lk hnone
  exact absurd (h e he) (by omega)


/-! ### Reachability along adjacency edges -/

/-- v is reachable from s following stored adjacency edges (weights are
irrelevant). -/
inductive ReachU {W : Type} (g : Graph W) (s : Nat) : Nat → Prop
  | base : ReachU g s s
  | step {u v : Nat} : ReachU g s u → (∃ w, (v, w) ∈ g.adjOf u) → ReachU g s v

theorem marked_of_reachU {W : Type} (g : List (List (Nat × W))) (s : Nat)
    (lkF : List Bool) (hlen : lkF.length = g.length)
    (hclosed : ∀ u : Nat, lkF[u]? = some true →
      ∀ l, g[u]? = some l → ∀ e ∈ l, lkF[e.1]? = some true)
    (hs : lkF[s]? = some true) :
    ∀ v, ReachU (⟨g⟩ : Graph W) s v → lkF[v]? = some true := by
  intro v h
  induction h with
  | base => exact hs
  | @step u v hr hedge ih =>
    obtain ⟨w, hw⟩ := hedge
    have hu : u < g.length := by
      have := (List.getElem?_eq_some.mp ih).1
      omega
    have hgu : g[u]? = some g[u] := List.getElem?_eq_getElem hu
    have hadj : Graph.adjOf (⟨g⟩ : Graph W) u = g[u] := by
      simp [Graph.adjOf, hgu]
    rw [hadj] at hw
    exact hclosed u ih g[u] hgu (v, w) hw

/-! ### The bfs main loop -/

theorem bfsLoop_run {W : Type} (g : List (List (Nat × W))) (s : Nat)
    (hwf : ∀ l ∈ g, ∀ e ∈ l, e.1 < g.length) :
    ∀ (fuel : Nat) (q : List Nat) (lk : List Bool) (acc : List Nat),
      lk.length = g.length →
      2 * countFalse lk + q.length ≤ fuel →
      (∀ v : Nat, v ∈ acc ↔ lk[v]? = some true) →
      (∀ v ∈ q, v ∈ acc) →
      acc.Nodup →
      (∀ v ∈ acc, ReachU (⟨g⟩ : Graph W) s v) →
      (∀ u : Nat, lk[u]? = some true → u ∈ q ∨
        ∀ l, g[u]? = some l → ∀ e ∈ l, lk[e.1]? = some true) →
      ∃ (res : List Nat) (lkF : List Bool),
        bfsLoop g fuel q lk acc = .ok res ∧
        lkF.length = g.length ∧
        (∃ ext, res = acc ++ ext) ∧
        res.Nodup ∧
        (∀ v ∈ res, ReachU (⟨g⟩ : Graph W) s v) ∧
        (∀ v : Nat, v ∈ res ↔ lkF[v]? = some true) ∧
        (∀ u : Nat, lkF[u]? = some true →
          ∀ l, g[u]? = some l → ∀ e ∈ l, lkF[e.1]? = some true) := by
  intro fuel
  induction fuel with
  | zero =>
    intro q lk acc hlen hfuel hsync hqacc hnd hreach hclose
    obtain rfl : q = [] := by
      cases q with
      | nil => rfl
      | cons a t => simp at hfuel
    refine ⟨acc, lk, rfl, hlen, ⟨[], by simp⟩, hnd, hreach, hsync, ?_⟩
    intro u hu
    rcases hclose u hu with h | h
    · cases h
    · exact h
  | succ fuel ih =>
    intro q lk acc hlen hfuel hsync hqacc hnd hreach hclose
    cases q with
    | nil =>
      refine ⟨acc, lk, rfl, hlen, ⟨[], by simp⟩, hnd, hreach, hsync, ?_⟩
      intro u hu
      rcases hclose u hu with h | h
      · cases h
      · exact h
    | cons node rest =>
      have hnodeacc : node ∈ acc := hqacc node (List.mem_cons_self _ _)
      have hnodemk : lk[node]? = some true := (hsync node).mp hnodeacc
      have hnodelt : node < g.length := by
        have := (List.getElem?_eq_some.mp hnodemk).1
        omega
      have hg : g[node]? = some g[node] := List.getElem?_eq_getElem hnodelt
      have hneigh : ∀ e ∈ g[node], e.1 < lk.length := by
        intro e he
        rw [hlen]
        exact hwf g[node] (List.getElem?_mem hg) e he
      cases hs' : bfsScan g[node] lk acc rest with
      | none => exact absurd hs' (bfsScan_isSome _ _ _ _ hneigh)
      | some t =>
        obtain ⟨lk2, acc2, q2⟩ := t
        have hstep : bfsLoop g (fuel + 1) (node :: rest) lk acc =
            bfsLoop g fuel q2 lk2 acc2 := by
          simp only [bfsLoop, hg, hs']
        obtain ⟨news, hacc2, hq2, hlen2, hcount, hmono, hnews, hnewsnd,
          hconv, hall⟩ := bfsScan_spec g[node] lk acc rest lk2 acc2 q2 hs'
        have hsync2 : ∀ v : Nat, v ∈ acc2 ↔ lk2[v]? = some true := by
          intro v
          constructor
          · intro hv
            rw [hacc2] at hv
            rcases List.mem_append.mp hv with hv' | hv'
            · exact hmono v ((hsync v).mp hv')
            · obtain ⟨w, hw⟩ := (hnews v hv').2
              exact hall (v, w) hw
          · intro hv
            rw [hacc2]
            rcases hconv v hv with hT | hN
            · exact List.mem_append_left _ ((hsync v).mpr hT)
            · exact List.mem_append_right _ hN
        have hdisj : ∀ a ∈ acc, a ∉ news := by
          intro a ha hmem
          have h1 := (hsync a).mp ha
          have h2 := (hnews a hmem).1
          rw [h1] at h2
          cases h2
        obtain ⟨res, lkF, hrun, hlenF, ⟨ext, hext⟩, hndF, hreachF, hsyncF,
            hcloseF⟩ :=
          ih q2 lk2 acc2 (hlen2.trans hlen)
            (by
              have hq2l : q2.length = rest.length + news.length := by
                rw [hq2]; simp
              simp only [List.length_cons] at hfuel
              omega)
            hsync2
            (by
              intro v hv
              rw [hq2] at hv
              rw [hacc2]
              rcases List.mem_append.mp hv with hv' | hv'
              · exact List.mem_append_left _
                  (hqacc v (List.mem_cons_of_mem _ hv'))
              · exact List.mem_append_right _ hv')
            (by
              rw [hacc2]
              exact hnd.append hnewsnd hdisj)
            (by
              intro v hv
              rw [hacc2] at hv
              rcases List.mem_append.mp hv with hv' | hv'
              · exact hreach v hv'
              · obtain ⟨w, hw⟩ := (hnews v hv').2
                refine ReachU.step (hreach node hnodeacc) ⟨w, ?_⟩
                simpa [Graph.adjOf, hg] using hw)
            (by
              intro u hu
              rcases hconv u hu with hT | hN
              · rcases hclose u hT with hq | hvis
                · rcases List.mem_cons.mp hq with rfl | hq'
                  · right
                    intro l hl e he
                    rw [hg] at hl
                    obtain rfl : g[u] = l := by injection hl
                    exact hall e he
                  · left
                    rw [hq2]
                    exact List.mem_append_left _ hq'
                · right
                  intro l hl e he
                  exact hmono e.1 (hvis l hl e he)
              · left
                rw [hq2]
                exact List.mem_append_right _ hN)
        refine ⟨res, lkF, hstep.trans hrun, hlenF, ⟨news ++ ext, ?_⟩, hndF,
          hreachF, hsyncF, hcloseF⟩
        rw [hext, hacc2, List.append_assoc]

/-- Facts about the initial visited table of a traversal. -/
theorem init_lookup_spec {n s : Nat} (hs : s < n) :
    ∀ v : Nat, ((List.replicate n false).set s true)[v]? = some true ↔ v = s := by
  intro v
  constructor
  · intro hv
    by_contra hne
    rw [List.getElem?_set_ne (fun h => hne h.symm)] at hv
    rw [List.getElem?_replicate] at hv
    split at hv
    · cases hv
    · cases hv
  · intro hv
    subst hv
    exact List.getElem?_set_eq_of_lt true (by simpa using hs)

theorem init_lookup_countFalse {n s : Nat} (hs : s < n) :
    countFalse ((List.replicate n false).set s true) + 1 = n := by
  have h1 : (List.replicate n false)[s]? = some false := by
    rw [List.getElem?_replicate, if_pos hs]
  have h2 := countFalse_set_true h1
  have h3 : countFalse (List.replicate n false) = n := by
    simp [countFalse]
  omega

/-- Complete run of Graph::bfs on a well-formed graph: it succeeds and
returns exactly the reachable nodes, without duplicates, starting with the
start node. -/
theorem bfs_run {W : Type} (g : Graph W) (s : Nat) (hwf : g.WF)
    (hs : s < g.graph.length) :
    ∃ res : List Nat, g.bfs s = .ok res ∧ res.head? = some s ∧ res.Nodup ∧
      ∀ v : Nat, v ∈ res ↔ ReachU g s v := by
  obtain ⟨res, lkF, hrun, hlenF, ⟨ext, hext⟩, hndF, hreachF, hsyncF, hcloseF⟩ :=
    bfsLoop_run g.graph s hwf (2 * g.graph.length + 1) [s]
      ((List.replicate g.graph.length false).set s true) [s]
      (by simp)
      (by
        have := init_lookup_countFalse (n := g.graph.length) hs
        simp only [List.length_cons, List.length_nil]
        omega)
      (by
        intro v
        rw [init_lookup_spec hs v]
        simp)
      (by intro v hv; exact hv)
      (by simp)
      (by
        intro v hv
        obtain rfl : v = s := by simpa using hv
        exact ReachU.base)
      (by
        intro u hu
        left
        simpa using (init_lookup_spec hs u).mp hu)
  refine ⟨res, ?_, ?_, hndF, ?_⟩
  · simp only [Graph.bfs]
    rw [if_neg (by omega)]
    exact hrun
  · rw [hext]
    rfl
  · intro v
    constructor
    · exact hreachF v
    · intro hr
      refine (hsyncF v).mpr ?_
      refine marked_of_reachU g.graph s lkF hlenF hcloseF ?_ v hr
      refine (hsyncF s).mp ?_
      rw [hext]
      exact List.mem_append_left _ (List.mem_cons_self _ _)

/-! ### The dfs main loop -/

theorem dfsLoop_run {W : Type} (g : List (List (Nat × W))) (s : Nat)
    (hwf : ∀ l ∈ g, ∀ e ∈ l, e.1 < g.length) :
    ∀ (fuel : Nat) (st : List Nat) (lk : List Bool) (acc : List Nat),
      lk.length = g.length →
      2 * countFalse lk + st.length ≤ fuel →
      (∀ v ∈ st, lk[v]? = some true) →
      (∀ v : Nat, v ∈ acc ↔ lk[v]? = some true) →
      acc.Nodup →
      (∀ v ∈ acc, ReachU (⟨g⟩ : Graph W) s v) →
      (∀ u : Nat, lk[u]? = some true → u ∈ st ∨
        ∀ l, g[u]? = some l → ∀ e ∈ l, lk[e.1]? = some true) →
      ∃ (res : List Nat) (lkF : List Bool),
        dfsLoop g fuel st lk acc = .ok res ∧
        lkF.length = g.length ∧
        (∃ ext, res = acc ++ ext) ∧
        res.Nodup ∧
        (∀ v ∈ res, ReachU (⟨g⟩ : Graph W) s v) ∧
        (∀ v : Nat, v ∈ res ↔ lkF[v]? = some true) ∧
        (∀ u : Nat, lkF[u]? = some true →
          ∀ l, g[u]? = some l → ∀ e ∈ l, lkF[e.1]? = some true) := by
  intro fuel
  induction fuel with
  | zero =>
    intro st lk acc hlen hfuel hstmk hsync hnd hreach hclose
    obtain rfl : st = [] := by
      cases st with
      | nil => rfl
      | cons a t => simp at hfuel
    refine ⟨acc, lk, rfl, hlen, ⟨[], by simp⟩, hnd, hreach, hsync, ?_⟩
    intro u hu
    rcases hclose u hu with h | h
    · cases h
    · exact h
  | succ fuel ih =>
    intro st lk acc hlen hfuel hstmk hsync hnd hreach hclose
    cases st with
    | nil =>
      refine ⟨acc, lk, rfl, hlen, ⟨[], by simp⟩, hnd, hreach, hsync, ?_⟩
      intro u hu
      rcases hclose u hu with h | h
      · cases h
      · exact h
    | cons node rest =>
      have hnodemk : lk[node]? = some true :=
        hstmk node (List.mem_cons_self _ _)
      have hnodeacc : node ∈ acc := (hsync node).mpr hnodemk
      have hnodelt : node < g.length := by
        have := (List.getElem?_eq_some.mp hnodemk).1
        omega
      have hg : g[node]? = some g[node] := List.getElem?_eq_getElem hnodelt
      have hneigh : ∀ e ∈ g[node], e.1 < lk.length := by
        intro e he
        rw [hlen]
        exact hwf g[node] (List.getElem?_mem hg) e he
      cases hfind : dfsFind g[node] lk with
      | none => exact absurd hfind (dfsFind_isSome _ _ hneigh)
      | some o =>
        cases o with
        | none =>
          have hstep : dfsLoop g (fuel + 1) (node :: rest) lk acc =
              dfsLoop g fuel rest lk acc := by
            simp only [dfsLoop, hg, hfind]
          have hallmk := dfsFind_eq_some_none g[node] lk hfind
          obtain ⟨res, lkF, hrun, hlenF, hext, hndF, hreachF, hsyncF,
              hcloseF⟩ :=
            ih rest lk acc hlen
              (by simp only [List.length_cons] at hfuel; omega)
              (fun v hv => hstmk v (List.mem_cons_of_mem _ hv))
              hsync hnd hreach
              (by
                intro u hu
                rcases hclose u hu with hq | hvis
                · rcases List.mem_cons.mp hq with rfl | hq'
                  · right
                    intro l hl e he
                    rw [hg] at hl
                    obtain rfl : g[u] = l := by injection hl
                    exact hallmk e he
                  · exact Or.inl hq'
                · exact Or.inr hvis)
          exact ⟨res, lkF, hstep.trans hrun, hlenF, hext, hndF, hreachF,
            hsyncF, hcloseF⟩
        | some v =>
          obtain ⟨hvfalse, w, hw⟩ := dfsFind_eq_some_some g[node] lk v hfind
          have hvlt : v < lk.length := (List.getElem?_eq_some.mp hvfalse).1
          have hvnotacc : v ∉ acc := by
            intro hmem
            have := (hsync v).mp hmem
            rw [hvfalse] at this
            cases this
          have hvset : (lk.set v true)[v]? = some true :=
            List.getElem?_set_eq_of_lt true hvlt
          have hstep : dfsLoop g (fuel + 1) (node :: rest) lk acc =
              dfsLoop g fuel (v :: node :: rest) (lk.set v true)
                (acc ++ [v]) := by
            simp only [dfsLoop, hg, hfind]
          obtain ⟨res, lkF, hrun, hlenF, ⟨ext, hext⟩, hndF, hreachF, hsyncF,
              hcloseF⟩ :=
            ih (v :: node :: rest) (lk.set v true) (acc ++ [v])
              (by rw [List.length_set]; exact hlen)
              (by
                have := countFalse_set_true hvfalse
                simp only [List.length_cons] at hfuel ⊢
                omega)
              (by
                intro x hx
                rcases List.mem_cons.mp hx with rfl | hx'
                · exact hvset
                · exact getElem?_set_true_of_true (hstmk x hx'))
              (by
                intro x
                constructor
                · intro hx
                  rcases List.mem_append.mp hx with hx' | hx'
                  · exact getElem?_set_true_of_true ((hsync x).mp hx')
                  · obtain rfl : x = v := by simpa using hx'
                    exact hvset
                · intro hx
                  rcases eq_or_ne x v with rfl | hne
                  · exact List.mem_append_right _ (List.mem_cons_self _ _)
                  · rw [List.getElem?_set_ne (Ne.symm hne)] at hx
                    exact List.mem_append_left _ ((hsync x).mpr hx))
              (by
                refine hnd.append (by simp) ?_
                intro a ha hmem
                obtain rfl : a = v := by simpa using hmem
                exact hvnotacc ha)
              (by
                intro x hx
                rcases List.mem_append.mp hx with hx' | hx'
                · exact hreach x hx'
                · obtain rfl : x = v := by simpa using hx'
                  refine ReachU.step (hreach node hnodeacc) ⟨w, ?_⟩
                  simpa [Graph.adjOf, hg] using hw)
              (by
                intro u hu
                rcases eq_or_ne u v with rfl | hne
                · exact Or.inl (List.mem_cons_self _ _)
                · rw [List.getElem?_set_ne (Ne.symm hne)] at hu
                  rcases hclose u hu with hq | hvis
                  · exact Or.inl (List.mem_cons_of_mem _ hq)
                  · right
                    intro l hl e he
                    exact getElem?_set_true_of_true (hvis l hl e he))
          refine ⟨res, lkF, hstep.trans hrun, hlenF, ⟨v :: ext, ?_⟩, hndF,
            hreachF, hsyncF, hcloseF⟩
          rw [hext, List.append_assoc]
          rfl

/-- Complete run of Graph::dfs on a well-formed graph: it succeeds and
returns exactly the reachable nodes, without duplicates, starting with the
start node. -/
theorem dfs_run {W : Type} (g : Graph W) (s : Nat) (hwf : g.WF)
    (hs : s < g.graph.length) :
    ∃ res : List Nat, g.dfs s = .ok res ∧ res.head? = some s ∧ res.Nodup ∧
      ∀ v : Nat, v ∈ res ↔ ReachU g s v := by
  obtain ⟨res, lkF, hrun, hlenF, ⟨ext, hext⟩, hndF, hreachF, hsyncF, hcloseF⟩ :=
    dfsLoop_run g.graph s hwf (2 * g.graph.length + 1) [s]
      ((List.replicate g.graph.length false).set s true) [s]
      (by simp)
      (by
        have := init_lookup_countFalse (n := g.graph.length) hs
        simp only [List.length_cons, List.length_nil]
        omega)
      (by
        intro v hv
        obtain rfl : v = s := by simpa using hv
        exact (init_lookup_spec hs v).mpr rfl)
      (by
        intro v
        rw [init_lookup_spec hs v]
        simp)
      (by simp)
      (by
        intro v hv
        obtain rfl : v = s := by simpa using hv
        exact ReachU.base)
      (by
        intro u hu
        left
        simpa using (init_lookup_spec hs u).mp hu)
  refine ⟨res, ?_, ?_, hndF, ?_⟩
  · simp only [Graph.dfs]
    rw [if_neg (by omega)]
    exact hrun
  · rw [hext]
    rfl
  · intro v
    constructor
    · exact hreachF v
    · intro hr
      refine (hsyncF v).mpr ?_
      refine marked_of_reachU g.graph s lkF hlenF hcloseF ?_ v hr
      refine (hsyncF s).mp ?_
      rw [hext]
      exact List.mem_append_left _ (List.mem_cons_self _ _)

/-! ### Error characterization for the traversal loops -/

theorem bfsLoop_ne_err {W : Type} (g : List (List (Nat × W))) :
    ∀ (fuel : Nat) (q : List Nat) (lk : List Bool) (acc : List Nat)
      (e : GraphError), bfsLoop g fuel q lk acc ≠ .err e := by
  intro fuel
  induction fuel with
  | zero =>
    intro q lk acc e
    cases q with
    | nil => simp [bfsLoop]
    | cons node rest => simp [bfsLoop]
  | succ fuel ih =>
    intro q lk acc e
    cases q with
    | nil => simp [bfsLoop]
    | cons node rest =>
      cases hg : g[node]? with
      | none =>
        have hstep : bfsLoop g (fuel + 1) (node :: rest) lk acc =
            bfsLoop g fuel rest lk acc := by
          simp only [bfsLoop, hg]
        rw [hstep]
        exact ih rest lk acc e
      | some neigh =>
        cases hs : bfsScan neigh lk acc rest with
        | none =>
          have hstep : bfsLoop g (fuel + 1) (node :: rest) lk acc =
              .panicked := by
            simp only [bfsLoop, hg, hs]
          rw [hstep]
          simp
        | some t =>
          obtain ⟨lk2, acc2, q2⟩ := t
          have hstep : bfsLoop g (fuel + 1) (node :: rest) lk acc =
              bfsLoop g fuel q2 lk2 acc2 := by
            simp only [bfsLoop, hg, hs]
          rw [hstep]
          exact ih q2 lk2 acc2 e

theorem dfsLoop_ne_err {W : Type} (g : List (List (Nat × W))) :
    ∀ (fuel : Nat) (st : List Nat) (lk : List Bool) (acc : List Nat)
      (e : GraphError), dfsLoop g fuel st lk acc ≠ .err e := by
  intro fuel
  induction fuel with
  | zero =>
    intro st lk acc e
    cases st with
    | nil => simp [dfsLoop]
    | cons node rest => simp [dfsLoop]
  | succ fuel ih =>
    intro st lk acc e
    cases st with
    | nil => simp [dfsLoop]
    | cons node rest =>
      cases hg : g[node]? with
      | none =>
        have hstep : dfsLoop g (fuel + 1) (node :: rest) lk acc =
            dfsLoop g fuel (node :: rest) lk acc := by
          simp only [dfsLoop, hg]
        rw [hstep]
        exact ih (node :: rest) lk acc e
      | some neigh =>
        cases hf : dfsFind neigh lk with
        | none =>
          have hstep : dfsLoop g (fuel + 1) (node :: rest) lk acc =
              .panicked := by
            simp only [dfsLoop, hg, hf]
          rw [hstep]
          simp
        | some o =>
          cases o with
          | none =>
            have hstep : dfsLoop g (fuel + 1) (node :: rest) lk acc =
                dfsLoop g fuel rest lk acc := by
              simp only [dfsLoop, hg, hf]
            rw [hstep]
            exact ih rest lk acc e
          | some v =>
            have hstep : dfsLoop g (fuel + 1) (node :: rest) lk acc =
                dfsLoop g fuel (v :: node :: rest) (lk.set v true)
                  (acc ++ [v]) := by
              simp only [dfsLoop, hg, hf]
            rw [hstep]
            exact ih (v :: node :: rest) (lk.set v true) (acc ++ [v]) e

/-- A bfs loop abort can only come from an out-of-range adjacency target
stored somewhere in the graph. -/
theorem bfsLoop_panicked {W : Type} (g : List (List (Nat × W))) :
    ∀ (fuel : Nat) (q : List Nat) (lk : List Bool) (acc : List Nat),
      lk.length = g.length →
      bfsLoop g fuel q lk acc = .panicked →
      ∃ l ∈ g, ∃ e ∈ l, g.length ≤ e.1 := by
  intro fuel
  induction fuel with
  | zero =>
    intro q lk acc _ h
    cases q with
    | nil => simp [bfsLoop] at h
    | cons node rest => simp [bfsLoop] at h
  | succ fuel ih =>
    intro q lk acc hlen h
    cases q with
    | nil => simp [bfsLoop] at h
    | cons node rest =>
      cases hg : g[node]? with
      | none =>
        have hstep : bfsLoop g (fuel + 1) (node :: rest) lk acc =
            bfsLoop g fuel rest lk acc := by
          simp only [bfsLoop, hg]
        rw [hstep] at h
        exact ih rest lk acc hlen h
      | some neigh =>
        cases hs : bfsScan neigh lk acc rest with
        | none =>
          obtain ⟨e, he, hb⟩ := bfsScan_eq_none neigh lk acc rest hs
          exact ⟨neigh, List.getElem?_mem hg, e, he, by omega⟩
        | some t =>
          obtain ⟨lk2, acc2, q2⟩ := t
          have hstep : bfsLoop g (fuel + 1) (node :: rest) lk acc =
              bfsLoop g fuel q2 lk2 acc2 := by
            simp only [bfsLoop, hg, hs]
          rw [hstep] at h
          obtain ⟨_, _, _, hlen2, _⟩ :=
            bfsScan_spec neigh lk acc rest lk2 acc2 q2 hs
          exact ih q2 lk2 acc2 (hlen2.trans hlen) h

/-- A dfs loop abort can only come from an out-of-range adjacency target. -/
theorem dfsLoop_panicked {W : Type} (g : List (List (Nat × W))) :
    ∀ (fuel : Nat) (st : List Nat) (lk : List Bool) (acc : List Nat),
      lk.length = g.length →
      dfsLoop g fuel st lk acc = .panicked →
      ∃ l ∈ g, ∃ e ∈ l, g.length ≤ e.1 := by
  intro fuel
  induction fuel with
  | zero =>
    intro st lk acc _ h
    cases st with
    | nil => simp [dfsLoop] at h
    | cons node rest => simp [dfsLoop] at h
  | succ fuel ih =>
    intro st lk acc hlen h
    cases st with
    | nil => simp [dfsLoop] at h
    | cons node rest =>
      cases hg : g[node]? with
      | none =>
        have hstep : dfsLoop g (fuel + 1) (node :: rest) lk acc =
            dfsLoop g fuel (node :: rest) lk acc := by
          simp only [dfsLoop, hg]
        rw [hstep] at h
        exact ih (node :: rest) lk acc hlen h
      | some neigh =>
        cases hf : dfsFind neigh lk with
        | none =>
          obtain ⟨e, he, hb⟩ := dfsFind_eq_none neigh lk hf
          exact ⟨neigh, List.getElem?_mem hg, e, he, by omega⟩
        | some o =>
          cases o with
          | none =>
            have hstep : dfsLoop g (fuel + 1) (node :: rest) lk acc =
                dfsLoop g fuel rest lk acc := by
              simp only [dfsLoop, hg, hf]
            rw [hstep] at h
            exact ih rest lk acc hlen h
          | some v =>
            have hstep : dfsLoop g (fuel + 1) (node :: rest) lk acc =
                dfsLoop g fuel (v :: node :: rest) (lk.set v true)
                  (acc ++ [v]) := by
              simp only [dfsLoop, hg, hf]
            rw [hstep] at h
            exact ih (v :: node :: rest) (lk.set v true) (acc ++ [v])
              (by rw [List.length_set]; exact hlen) h

/-! ### Lemmas about relaxation -/

theorem relaxAll_ne_fuelOut (u d : Nat) :
    ∀ (neigh : List (Nat × Nat)) (dist : List (Option Nat)),
      relaxAll u d neigh dist ≠ .fuelOut := by
  intro neigh
  induction neigh with
  | nil => intro dist; simp [relaxAll]
  | cons e0 rest ih =>
    intro dist
    obtain ⟨v0, w0⟩ := e0
    by_cases hc : d + w0 ≤ u32Max
    · cases hd : dist[v0]? with
      | none =>
        have hstep : relaxAll u d ((v0, w0) :: rest) dist = .panicked := by
          simp only [relaxAll, if_pos hc, hd]
        rw [hstep]
        simp
      | some o =>
        cases o with
        | none =>
          have hstep : relaxAll u d ((v0, w0) :: rest) dist =
              relaxAll u d rest (dist.set v0 (some (d + w0))) := by
            simp only [relaxAll, if_pos hc, hd]
          rw [hstep]
          exact ih _
        | some dv0 =>
          by_cases hlt : d + w0 < dv0
          · have hstep : relaxAll u d ((v0, w0) :: rest) dist =
                relaxAll u d rest (dist.set v0 (some (d + w0))) := by
              simp only [relaxAll, if_pos hc, hd, if_pos hlt]
            rw [hstep]
            exact ih _
          · have hstep : relaxAll u d ((v0, w0) :: rest) dist =
                relaxAll u d rest dist := by
              simp only [relaxAll, if_pos hc, hd, if_neg hlt]
            rw [hstep]
            exact ih _
    · have hstep : relaxAll u d ((v0, w0) :: rest) dist =
          .err (.DistanveOverflow u v0 d w0) := by
        simp only [relaxAll, if_neg hc]
      rw [hstep]
      simp

theorem relaxAll_err (u d : Nat) :
    ∀ (neigh : List (Nat × Nat)) (dist : List (Option Nat))
      (e : GraphError), relaxAll u d neigh dist = .err e →
      ∃ v w, e = .DistanveOverflow u v d w ∧ (v, w) ∈ neigh ∧
        u32Max < d + w := by
  intro neigh
  induction neigh with
  | nil => intro dist e h; simp [relaxAll] at h
  | cons e0 rest ih =>
    intro dist e h
    obtain ⟨v0, w0⟩ := e0
    by_cases hc : d + w0 ≤ u32Max
    · cases hd : dist[v0]? with
      | none =>
        have hstep : relaxAll u d ((v0, w0) :: rest) dist = .panicked := by
          simp only [relaxAll, if_pos hc, hd]
        rw [hstep] at h
        simp at h
      | some o =>
        cases o with
        | none =>
          have hstep : relaxAll u d ((v0, w0) :: rest) dist =
              relaxAll u d rest (dist.set v0 (some (d + w0))) := by
            simp only [relaxAll, if_pos hc, hd]
          rw [hstep] at h
          obtain ⟨v, w, he, hm, hb⟩ := ih _ e h
          exact ⟨v, w, he, List.mem_cons_of_mem _ hm, hb⟩
        | some dv0 =>
          by_cases hlt : d + w0 < dv0
          · have hstep : relaxAll u d ((v0, w0) :: rest) dist =
                relaxAll u d rest (dist.set v0 (some (d + w0))) := by
              simp only [relaxAll, if_pos hc, hd, if_pos hlt]
            rw [hstep] at h
            obtain ⟨v, w, he, hm, hb⟩ := ih _ e h
            exact ⟨v, w, he, List.mem_cons_of_mem _ hm, hb⟩
          · have hstep : relaxAll u d ((v0, w0) :: rest) dist =
                relaxAll u d rest dist := by
              simp only [relaxAll, if_pos hc, hd, if_neg hlt]
            rw [hstep] at h
            obtain ⟨v, w, he, hm, hb⟩ := ih _ e h
            exact ⟨v, w, he, List.mem_cons_of_mem _ hm, hb⟩
    · have hstep : relaxAll u d ((v0, w0) :: rest) dist =
          .err (.DistanveOverflow u v0 d w0) := by
        simp only [relaxAll, if_neg hc]
      rw [hstep] at h
      obtain rfl : GraphError.DistanveOverflow u v0 d w0 = e := by
        injection h
      exact ⟨v0, w0, rfl, List.mem_cons_self _ _, by omega⟩

theorem relaxAll_panicked (u d : Nat) :
    ∀ (neigh : List (Nat × Nat)) (dist : List (Option Nat)),
      relaxAll u d neigh dist = .panicked →
      ∃ e ∈ neigh, dist.length ≤ e.1 := by
  intro neigh
  induction neigh with
  | nil => intro dist h; simp [relaxAll] at h
  | cons e0 rest ih =>
    intro dist h
    obtain ⟨v0, w0⟩ := e0
    by_cases hc : d + w0 ≤ u32Max
    · cases hd : dist[v0]? with
      | none =>
        refine ⟨(v0, w0), List.mem_cons_self _ _, ?_⟩
        simpa using List.getElem?_eq_none_iff.mp hd
      | some o =>
        cases o with
        | none =>
          have hstep : relaxAll u d ((v0, w0) :: rest) dist =
              relaxAll u d rest (dist.set v0 (some (d + w0))) := by
            simp only [relaxAll, if_pos hc, hd]
          rw [hstep] at h
          obtain ⟨e, hm, hb⟩ := ih _ h
          exact ⟨e, List.mem_cons_of_mem _ hm,
            by simpa [List.length_set] using hb⟩
        | some dv0 =>
          by_cases hlt : d + w0 < dv0
          · have hstep : relaxAll u d ((v0, w0) :: rest) dist =
                relaxAll u d rest (dist.set v0 (some (d + w0))) := by
              simp only [relaxAll, if_pos hc, hd, if_pos hlt]
            rw [hstep] at h
            obtain ⟨e, hm, hb⟩ := ih _ h
            exact ⟨e, List.mem_cons_of_mem _ hm,
              by simpa [List.length_set] using hb⟩
          · have hstep : relaxAll u d ((v0, w0) :: rest) dist =
                relaxAll u d rest dist := by
              simp only [relaxAll, if_pos hc, hd, if_neg hlt]
            rw [hstep] at h
            obtain ⟨e, hm, hb⟩ := ih _ h
            exact ⟨e, List.mem_cons_of_mem _ hm, hb⟩
    · have hstep : relaxAll u d ((v0, w0) :: rest) dist =
          .err (.DistanveOverflow u v0 d w0) := by
        simp only [relaxAll, if_neg hc]
      rw [hstep] at h
      simp at h

theorem relaxAll_ok_spec (u d : Nat) :
    ∀ (neigh : List (Nat × Nat)) (dist dist2 : List (Option Nat)),
      relaxAll u d neigh dist = .ok dist2 →
      dist2.length = dist.length ∧
      (∀ v dv : Nat, dist[v]? = some (some dv) →
        ∃ dv2, dist2[v]? = some (some dv2) ∧ dv2 ≤ dv) ∧
      (∀ v dv2 : Nat, dist2[v]? = some (some dv2) →
        dist[v]? = some (some dv2) ∨
          ∃ w, (v, w) ∈ neigh ∧ dv2 = d + w ∧ d + w ≤ u32Max) ∧
      (∀ e ∈ neigh, ∃ dv2, dist2[e.1]? = some (some dv2) ∧ dv2 ≤ d + e.2) := by
  intro neigh
  induction neigh with
  | nil =>
    intro dist dist2 h
    obtain rfl : dist = dist2 := by simpa [relaxAll] using h
    refine ⟨rfl, ?_, ?_, ?_⟩
    · intro v dv hv; exact ⟨dv, hv, le_refl _⟩
    · intro v dv2 hv; exact Or.inl hv
    · intro e he; cases he
  | cons e0 rest ih =>
    intro dist dist2 h
    obtain ⟨v0, w0⟩ := e0
    by_cases hc : d + w0 ≤ u32Max
    · cases hd : dist[v0]? with
      | none =>
        have hstep : relaxAll u d ((v0, w0) :: rest) dist = .panicked := by
          simp only [relaxAll, if_pos hc, hd]
        rw [hstep] at h
        simp at h
      | some o =>
        have hv0lt : v0 < dist.length := (List.getElem?_eq_some.mp hd).1
        have hset : (dist.set v0 (some (d + w0)))[v0]? = some (some (d + w0)) :=
          List.getElem?_set_eq_of_lt _ hv0lt
        cases o with
        | none =>
          have hstep : relaxAll u d ((v0, w0) :: rest) dist =
              relaxAll u d rest (dist.set v0 (some (d + w0))) := by
            simp only [relaxAll, if_pos hc, hd]
          rw [hstep] at h
          obtain ⟨hl, hmono, horig, hrel⟩ := ih _ dist2 h
          refine ⟨by simpa [List.length_set] using hl, ?_, ?_, ?_⟩
          · intro v dv hv
            rcases eq_or_ne v v0 with rfl | hne
            · rw [hd] at hv; cases (Option.some.injEq _ _ ▸ hv :)
            · exact hmono v dv (by rwa [List.getElem?_set_ne (Ne.symm hne)])
          · intro v dv2 hv
            rcases horig v dv2 hv with hL | ⟨w, hm, he, hb⟩
            · rcases eq_or_ne v v0 with rfl | hne
              · rw [hset] at hL
                obtain rfl : d + w0 = dv2 := by
                  have := Option.some.inj hL
                  exact Option.some.inj this
                exact Or.inr ⟨w0, List.mem_cons_self _ _, rfl, hc⟩
              · rw [List.getElem?_set_ne (Ne.symm hne)] at hL
                exact Or.inl hL
            · exact Or.inr ⟨w, List.mem_cons_of_mem _ hm, he, hb⟩
          · intro e he
            rcases List.mem_cons.mp he with rfl | he'
            · obtain ⟨dv2, h1, h2⟩ := hmono v0 (d + w0) hset
              exact ⟨dv2, h1, h2⟩
            · exact hrel e he'
        | some dv0 =>
          by_cases hlt : d + w0 < dv0
          · have hstep : relaxAll u d ((v0, w0) :: rest) dist =
                relaxAll u d rest (dist.set v0 (some (d + w0))) := by
              simp only [relaxAll, if_pos hc, hd, if_pos hlt]
            rw [hstep] at h
            obtain ⟨hl, hmono, horig, hrel⟩ := ih _ dist2 h
            refine ⟨by simpa [List.length_set] using hl, ?_, ?_, ?_⟩
            · intro v dv hv
              rcases eq_or_ne v v0 with rfl | hne
              · obtain rfl : dv0 = dv := by
                  rw [hd] at hv
                  exact Option.some.inj (Option.some.inj hv)
                obtain ⟨dv2, h1, h2⟩ := hmono _ (d + w0) hset
                exact ⟨dv2, h1, by omega⟩
              · exact hmono v dv (by rwa [List.getElem?_set_ne (Ne.symm hne)])
            · intro v dv2 hv
              rcases horig v dv2 hv with hL | ⟨w, hm, he, hb⟩
              · rcases eq_or_ne v v0 with rfl | hne
                · rw [hset] at hL
                  obtain rfl : d + w0 = dv2 :=
                    Option.some.inj (Option.some.inj hL)
                  exact Or.inr ⟨w0, List.mem_cons_self _ _, rfl, hc⟩
                · rw [List.getElem?_set_ne (Ne.symm hne)] at hL
                  exact Or.inl hL
              · exact Or.inr ⟨w, List.mem_cons_of_mem _ hm, he, hb⟩
            · intro e he
              rcases List.mem_cons.mp he with rfl | he'
              · obtain ⟨dv2, h1, h2⟩ := hmono v0 (d + w0) hset
                exact ⟨dv2, h1, h2⟩
              · exact hrel e he'
          · have hstep : relaxAll u d ((v0, w0) :: rest) dist =
                relaxAll u d rest dist := by
              simp only [relaxAll, if_pos hc, hd, if_neg hlt]
            rw [hstep] at h
            obtain ⟨hl, hmono, horig, hrel⟩ := ih _ dist2 h
            refine ⟨hl, hmono, ?_, ?_⟩
            · intro v dv2 hv
              rcases horig v dv2 hv with hL | ⟨w, hm, he, hb⟩
              · exact Or.inl hL
              · exact Or.inr ⟨w, List.mem_cons_of_mem _ hm, he, hb⟩
            · intro e he
              rcases List.mem_cons.mp he with rfl | he'
              · obtain ⟨dv2, h1, h2⟩ := hmono v0 dv0 hd
                exact ⟨dv2, h1, by omega⟩
              · exact hrel e he'
    · have hstep : relaxAll u d ((v0, w0) :: rest) dist =
          .err (.DistanveOverflow u v0 d w0) := by
        simp only [relaxAll, if_neg hc]
      rw [hstep] at h
      simp at h

/-! ### Lemmas about minimum selection and candidates -/

theorem selectMin_eq_none : ∀ (l : List (Nat × Nat)),
    selectMin l = none → l = [] := by
  intro l h
  cases l with
  | nil => rfl
  | cons p rest =>
    cases hr : selectMin rest with
    | none =>
      simp only [selectMin, hr] at h
      exact Option.noConfusion h
    | some q =>
      simp only [selectMin, hr] at h
      split at h <;> cases h

theorem selectMin_mem : ∀ (l : List (Nat × Nat)) (p : Nat × Nat),
    selectMin l = some p → p ∈ l := by
  intro l
  induction l with
  | nil => intro p h; simp [selectMin] at h
  | cons hd rest ih =>
    intro p h
    cases hr : selectMin rest with
    | none =>
      simp only [selectMin, hr] at h
      obtain rfl : hd = p := by injection h
      exact List.mem_cons_self _ _
    | some q =>
      simp only [selectMin, hr] at h
      split at h
      · obtain rfl : q = p := by injection h
        exact List.mem_cons_of_mem _ (ih _ hr)
      · obtain rfl : hd = p := by injection h
        exact List.mem_cons_self _ _

theorem selectMin_min : ∀ (l : List (Nat × Nat)) (p : Nat × Nat),
    selectMin l = some p → ∀ q ∈ l, p.2 ≤ q.2 := by
  intro l
  induction l with
  | nil => intro p h; simp [selectMin] at h
  | cons hd rest ih =>
    intro p h q hq
    cases hr : selectMin rest with
    | none =>
      obtain rfl : rest = [] := selectMin_eq_none rest hr
      simp only [selectMin, hr] at h
      obtain rfl : hd = p := by injection h
      have : q = hd := by simpa using hq
      rw [this]
    | some m =>
      simp only [selectMin, hr] at h
      split at h
      · obtain rfl : m = p := by injection h
        rcases List.mem_cons.mp hq with rfl | hq'
        · omega
        · exact ih _ hr q hq'
      · obtain rfl : hd = p := by injection h
        rcases List.mem_cons.mp hq with rfl | hq'
        · exact le_refl _
        · have := ih m hr q hq'
          omega

theorem mem_candidates {dist : List (Option Nat)} {visited : List Bool}
    (i dd : Nat) :
    (i, dd) ∈ candidates dist visited ↔
      i < visited.length ∧ visited[i]? = some false ∧
        dist[i]? = some (some dd) := by
  constructor
  · intro h
    obtain ⟨a, ha, hfa⟩ := List.mem_filterMap.mp h
    obtain ⟨har, hpred⟩ := List.mem_filter.mp ha
    have halt : a < visited.length := List.mem_range.mp har
    have hvis : visited[a]? = some false := by
      cases hv : visited[a]? with
      | none =>
        rw [hv] at hpred
        simp at hpred
      | some b =>
        rw [hv] at hpred
        cases b
        · rfl
        · simp at hpred
    cases hdist : dist[a]? with
    | none =>
      rw [hdist] at hfa
      simp at hfa
    | some o =>
      rw [hdist] at hfa
      cases o with
      | none => simp at hfa
      | some dd' =>
        simp only [Option.getD_some, Option.map_some'] at hfa
        obtain ⟨rfl, rfl⟩ : a = i ∧ dd' = dd := by
          have := Option.some.inj hfa
          exact ⟨congrArg Prod.fst this, congrArg Prod.snd this⟩
        exact ⟨halt, hvis, hdist⟩
  · rintro ⟨hi, hv, hd⟩
    refine List.mem_filterMap.mpr ⟨i, ?_, ?_⟩
    · refine List.mem_filter.mpr ⟨List.mem_range.mpr hi, ?_⟩
      rw [hv]
      rfl
    · rw [hd]
      rfl

/-! ### Weighted reachability and shortest distances -/

/-- d is the cost of some path from s to v along stored weighted edges. -/
inductive Reach (g : Graph Weighted) (s : Nat) : Nat → Nat → Prop
  | base : Reach g s s 0
  | step {u d v w : Nat} : Reach g s u d → (v, w) ∈ g.adjOf u →
      Reach g s v (d + w)

/-- d is the length of a shortest path from s to v. -/
def IsShortest (g : Graph Weighted) (s v d : Nat) : Prop :=
  Reach g s v d ∧ ∀ c, Reach g s v c → d ≤ c

theorem mem_adjOf {W : Type} {g : Graph W} {u : Nat} {e : Nat × W}
    (h : e ∈ g.adjOf u) : ∃ l, g.graph[u]? = some l ∧ e ∈ l := by
  unfold Graph.adjOf at h
  cases hg : g.graph[u]? with
  | none => rw [hg] at h; simp at h
  | some l => rw [hg] at h; exact ⟨l, rfl, h⟩

theorem reach_lt {g : Graph Weighted} {s : Nat} (hwf : g.WF)
    (hs : s < g.graph.length) :
    ∀ {v d : Nat}, Reach g s v d → v < g.graph.length := by
  intro v d h
  induction h with
  | base => exact hs
  | step hr he ih =>
    obtain ⟨l, hl, hm⟩ := mem_adjOf he
    exact hwf l (List.getElem?_mem hl) _ hm

/-- At the end of the dijkstra loop (no unvisited node has a tentative
distance) the distance table is correct. -/
theorem dijk_end_state (G : Graph Weighted) (s : Nat)
    (dist : List (Option Nat)) (visited : List Bool)
    (hlen : dist.length = G.graph.length)
    (hlenv : visited.length = G.graph.length)
    (hstart : dist[s]? = some (some 0))
    (hsettled : ∀ v : Nat, visited[v]? = some true →
      ∃ dv, dist[v]? = some (some dv) ∧ IsShortest G s v dv)
    (hrelaxed : ∀ u du : Nat, visited[u]? = some true →
      dist[u]? = some (some du) →
      ∀ e ∈ G.adjOf u, ∃ dv, dist[e.1]? = some (some dv) ∧ dv ≤ du + e.2)
    (hnone : selectMin (candidates dist visited) = none) :
    (∀ v dv : Nat, dist[v]? = some (some dv) → IsShortest G s v dv) ∧
    (∀ v : Nat, v < G.graph.length → dist[v]? = some none →
      ∀ c, ¬ Reach G s v c) := by
  have hempty : candidates dist visited = [] := selectMin_eq_none _ hnone
  have hvisA : ∀ v dv : Nat, dist[v]? = some (some dv) →
      visited[v]? = some true := by
    intro v dv hv
    have hvlt : v < dist.length := (List.getElem?_eq_some.mp hv).1
    have hvltv : v < visited.length := by omega
    cases hb : visited[v]? with
    | none =>
      have := List.getElem?_eq_none_iff.mp hb
      omega
    | some b =>
      cases b
      · exact absurd ((mem_candidates v dv).mpr ⟨hvltv, hb, hv⟩)
          (by rw [hempty]; simp)
      · rfl
  have hreachsome : ∀ (v c : Nat), Reach G s v c →
      ∃ dv, dist[v]? = some (some dv) := by
    intro v c h
    induction h with
    | base => exact ⟨0, hstart⟩
    | step hr he ih =>
      obtain ⟨du, hdu⟩ := ih
      have hvis := hvisA _ du hdu
      obtain ⟨dv, hdv, _⟩ := hrelaxed _ du hvis hdu _ he
      exact ⟨dv, hdv⟩
  constructor
  · intro v dv hv
    obtain ⟨dv', hdv', hshort⟩ := hsettled v (hvisA v dv hv)
    obtain rfl : dv' = dv := by
      rw [hv] at hdv'
      exact (Option.some.inj (Option.some.inj hdv')).symm
    exact hshort
  · intro v _ hv c hreach
    obtain ⟨dv, hdv⟩ := hreachsome v c hreach
    rw [hv] at hdv
    exact (by cases Option.some.inj hdv : False)

/-- When the dijkstra loop selects an unvisited node of minimum tentative
distance, that tentative distance is the true shortest distance. -/
theorem dijk_pick_shortest (G : Graph Weighted) (s : Nat) (hwf : G.WF)
    (hs : s < G.graph.length)
    (dist : List (Option Nat)) (visited : List Bool)
    (hlen : dist.length = G.graph.length)
    (hlenv : visited.length = G.graph.length)
    (hstart : dist[s]? = some (some 0))
    (hsound : ∀ v dv : Nat, dist[v]? = some (some dv) → Reach G s v dv)
    (hsettled : ∀ v : Nat, visited[v]? = some true →
      ∃ dv, dist[v]? = some (some dv) ∧ IsShortest G s v dv)
    (hrelaxed : ∀ u du : Nat, visited[u]? = some true →
      dist[u]? = some (some du) →
      ∀ e ∈ G.adjOf u, ∃ dv, dist[e.1]? = some (some dv) ∧ dv ≤ du + e.2)
    (u du : Nat)
    (hu_unvis : visited[u]? = some false)
    (hu_dist : dist[u]? = some (some du))
    (hmin : ∀ p ∈ candidates dist visited, du ≤ p.2) :
    IsShortest G s u du := by
  refine ⟨hsound u du hu_dist, ?_⟩
  have L : ∀ (v c : Nat), Reach G s v c →
      (visited[v]? = some true →
        ∀ dv : Nat, dist[v]? = some (some dv) → dv ≤ c) ∧
      (visited[v]? = some false → du ≤ c) := by
    intro v c h
    induction h with
    | base =>
      constructor
      · intro _ dv hdv
        obtain rfl : dv = 0 := by
          rw [hstart] at hdv
          exact (Option.some.inj (Option.some.inj hdv)).symm
        exact le_refl 0
      · intro hvF
        exact hmin _ ((mem_candidates s 0).mpr ⟨by omega, hvF, hstart⟩)
    | @step x cx v w hr he ih =>
      have hv_reach : Reach G s v (cx + w) := Reach.step hr he
      have hvlt : v < G.graph.length := reach_lt hwf hs hv_reach
      have hxlt : x < G.graph.length := reach_lt hwf hs hr
      cases hbx : visited[x]? with
      | none =>
        have := List.getElem?_eq_none_iff.mp hbx
        omega
      | some bx =>
        cases bx with
        | true =>
          obtain ⟨dx, hdx, hshortx⟩ := hsettled x hbx
          have hdxle : dx ≤ cx := ih.1 hbx dx hdx
          obtain ⟨dv, hdv, hdvle⟩ := hrelaxed x dx hbx hdx (v, w) he
          constructor
          · intro _ dv' hdv'
            obtain rfl : dv' = dv := by
              rw [hdv] at hdv'
              exact (Option.some.inj (Option.some.inj hdv')).symm
            omega
          · intro hvF
            have hmem : (v, dv) ∈ candidates dist visited :=
              (mem_candidates v dv).mpr ⟨by omega, hvF, hdv⟩
            have := hmin _ hmem
            simp only at this
            omega
        | false =>
          have hducx : du ≤ cx := ih.2 hbx
          constructor
          · intro hvT dv' hdv'
            obtain ⟨dv, hdv, hshortv⟩ := hsettled v hvT
            obtain rfl : dv' = dv := by
              rw [hdv] at hdv'
              exact (Option.some.inj (Option.some.inj hdv')).symm
            exact hshortv.2 _ hv_reach
          · intro _
            omega
  intro c hc
  exact (L u c hc).2 hu_unvis

/-- Invariant-based correctness of the dijkstra main loop. -/
theorem dijkLoop_correct (G : Graph Weighted) (s : Nat) (hwf : G.WF)
    (hs : s < G.graph.length) :
    ∀ (fuel : Nat) (dist : List (Option Nat)) (visited : List Bool),
      dist.length = G.graph.length →
      visited.length = G.graph.length →
      dist[s]? = some (some 0) →
      (∀ v dv : Nat, dist[v]? = some (some dv) → Reach G s v dv) →
      (∀ v : Nat, visited[v]? = some true →
        ∃ dv, dist[v]? = some (some dv) ∧ IsShortest G s v dv) →
      (∀ u du : Nat, visited[u]? = some true → dist[u]? = some (some du) →
        ∀ e ∈ G.adjOf u, ∃ dv, dist[e.1]? = some (some dv) ∧ dv ≤ du + e.2) →
      ∀ res : List (Option Nat),
        dijkLoop G.graph fuel dist visited = .ok res →
        res.length = G.graph.length ∧
        (∀ v dv : Nat, res[v]? = some (some dv) → IsShortest G s v dv) ∧
        (∀ v : Nat, v < G.graph.length → res[v]? = some none →
          ∀ c, ¬ Reach G s v c) := by
  intro fuel
  induction fuel with
  | zero =>
    intro dist visited hlen hlenv hstart hsound hsettled hrelaxed res hrun
    cases hsel : selectMin (candidates dist visited) with
    | none =>
      have hstep : dijkLoop G.graph 0 dist visited = .ok dist := by
        simp only [dijkLoop, hsel]
      rw [hstep] at hrun
      obtain rfl : dist = res := by injection hrun
      obtain ⟨hA, hB⟩ := dijk_end_state G s dist visited hlen hlenv hstart
        hsettled hrelaxed hsel
      exact ⟨hlen, hA, hB⟩
    | some p =>
      obtain ⟨u, du⟩ := p
      have hstep : dijkLoop G.graph 0 dist visited = .fuelOut := by
        simp only [dijkLoop, hsel]
      rw [hstep] at hrun
      exact Outcome.noConfusion hrun
  | succ fuel ih =>
    intro dist visited hlen hlenv hstart hsound hsettled hrelaxed res hrun
    cases hsel : selectMin (candidates dist visited) with
    | none =>
      have hstep : dijkLoop G.graph (fuel + 1) dist visited = .ok dist := by
        simp only [dijkLoop, hsel]
      rw [hstep] at hrun
      obtain rfl : dist = res := by injection hrun
      obtain ⟨hA, hB⟩ := dijk_end_state G s dist visited hlen hlenv hstart
        hsettled hrelaxed hsel
      exact ⟨hlen, hA, hB⟩
    | some p =>
      obtain ⟨u, du⟩ := p
      have hcand := selectMin_mem _ _ hsel
      obtain ⟨hu_ltv, hu_unvis, hu_dist⟩ := (mem_candidates u du).mp hcand
      have hmin : ∀ q ∈ candidates dist visited, du ≤ q.2 :=
        fun q hq => selectMin_min _ _ hsel q hq
      have hu_lt : u < G.graph.length := by omega
      have hg : G.graph[u]? = some G.graph[u] := List.getElem?_eq_getElem hu_lt
      have hadj_u : G.adjOf u = G.graph[u] := by simp [Graph.adjOf, hg]
      have hshort_u : IsShortest G s u du :=
        dijk_pick_shortest G s hwf hs dist visited hlen hlenv hstart hsound
          hsettled hrelaxed u du hu_unvis hu_dist hmin
      cases hrel : relaxAll u du G.graph[u] dist with
      | ok dist2 =>
        have hstep : dijkLoop G.graph (fuel + 1) dist visited =
            dijkLoop G.graph fuel dist2 (visited.set u true) := by
          simp only [dijkLoop, hsel, hg, hrel]
        rw [hstep] at hrun
        obtain ⟨hl2, hmono, horig, hrelpost⟩ :=
          relaxAll_ok_spec u du G.graph[u] dist dist2 hrel
        have hkeep : ∀ (v dv : Nat), dist[v]? = some (some dv) →
            IsShortest G s v dv → dist2[v]? = some (some dv) := by
          intro v dv hdv hsh
          obtain ⟨dv2, hdv2, hle⟩ := hmono v dv hdv
          rcases horig v dv2 hdv2 with hOld | ⟨w, hw, hEq, hb⟩
          · rw [hdv] at hOld
            obtain rfl : dv = dv2 := Option.some.inj (Option.some.inj hOld)
            exact hdv2
          · subst hEq
            have hreach_v : Reach G s v (du + w) :=
              Reach.step (hsound u du hu_dist) (by rw [hadj_u]; exact hw)
            have hge := hsh.2 _ hreach_v
            obtain rfl : du + w = dv := by omega
            exact hdv2
        have hu_dist2 : dist2[u]? = some (some du) :=
          hkeep u du hu_dist hshort_u
        refine ih dist2 (visited.set u true) (hl2.trans hlen)
          (by rw [List.length_set]; exact hlenv) ?_ ?_ ?_ ?_ res hrun
        · obtain ⟨dv2, hdv2, hle⟩ := hmono s 0 hstart
          obtain rfl : dv2 = 0 := by omega
          exact hdv2
        · intro v dv hv
          rcases horig v dv hv with hOld | ⟨w, hw, hEq, hb⟩
          · exact hsound v dv hOld
          · subst hEq
            exact Reach.step (hsound u du hu_dist) (by rw [hadj_u]; exact hw)
        · intro v hv
          rcases eq_or_ne v u with rfl | hne
          · exact ⟨du, hu_dist2, hshort_u⟩
          · rw [List.getElem?_set_ne (Ne.symm hne)] at hv
            obtain ⟨dv, hdv, hsh⟩ := hsettled v hv
            exact ⟨dv, hkeep v dv hdv hsh, hsh⟩
        · intro x dx hxvis hxdist e he
          rcases eq_or_ne x u with rfl | hne
          · obtain rfl : dx = du := by
              rw [hu_dist2] at hxdist
              exact (Option.some.inj (Option.some.inj hxdist)).symm
            have hme : e ∈ G.graph[x] := by rw [← hadj_u]; exact he
            obtain ⟨dv2, hdv2, hle⟩ := hrelpost e hme
            exact ⟨dv2, hdv2, hle⟩
          · rw [List.getElem?_set_ne (Ne.symm hne)] at hxvis
            obtain ⟨dxOld, hdxOld, hshx⟩ := hsettled x hxvis
            have hxkeep := hkeep x dxOld hdxOld hshx
            obtain rfl : dx = dxOld := by
              rw [hxkeep] at hxdist
              exact (Option.some.inj (Option.some.inj hxdist)).symm
            obtain ⟨dy, hdy, hyle⟩ := hrelaxed x dx hxvis hdxOld e he
            obtain ⟨dy2, hdy2, hy2le⟩ := hmono e.1 dy hdy
            exact ⟨dy2, hdy2, by omega⟩
      | err e =>
        have hstep : dijkLoop G.graph (fuel + 1) dist visited = .err e := by
          simp only [dijkLoop, hsel, hg, hrel]
        rw [hstep] at hrun
        exact Outcome.noConfusion hrun
      | panicked =>
        have hstep : dijkLoop G.graph (fuel + 1) dist visited = .panicked := by
          simp only [dijkLoop, hsel, hg, hrel]
        rw [hstep] at hrun
        exact Outcome.noConfusion hrun
      | fuelOut =>
        have hstep : dijkLoop G.graph (fuel + 1) dist visited = .fuelOut := by
          simp only [dijkLoop, hsel, hg, hrel]
        rw [hstep] at hrun
        exact Outcome.noConfusion hrun

theorem countFalse_pos {visited : List Bool} {u : Nat}
    (h : visited[u]? = some false) : 1 ≤ countFalse visited := by
  have hmem : false ∈ visited := List.getElem?_mem h
  have := List.count_pos_iff.mpr hmem
  simpa [countFalse] using this

theorem dijkLoop_fuel (g : List (List (Nat × Nat))) :
    ∀ (fuel : Nat) (dist : List (Option Nat)) (visited : List Bool),
      countFalse visited ≤ fuel →
      dijkLoop g fuel dist visited ≠ .fuelOut := by
  intro fuel
  induction fuel with
  | zero =>
    intro dist visited hfuel
    cases hsel : selectMin (candidates dist visited) with
    | none =>
      have hstep : dijkLoop g 0 dist visited = .ok dist := by
        simp only [dijkLoop, hsel]
      rw [hstep]
      simp
    | some p =>
      obtain ⟨u, du⟩ := p
      obtain ⟨hult, huv, hud⟩ := (mem_candidates u du).mp (selectMin_mem _ _ hsel)
      have := countFalse_pos huv
      omega
  | succ fuel ih =>
    intro dist visited hfuel
    cases hsel : selectMin (candidates dist visited) with
    | none =>
      have hstep : dijkLoop g (fuel + 1) dist visited = .ok dist := by
        simp only [dijkLoop, hsel]
      rw [hstep]
      simp
    | some p =>
      obtain ⟨u, du⟩ := p
      obtain ⟨hult, huv, hud⟩ := (mem_candidates u du).mp (selectMin_mem _ _ hsel)
      have hcf := countFalse_set_true huv
      cases hg : g[u]? with
      | none =>
        have hstep : dijkLoop g (fuel + 1) dist visited =
            dijkLoop g fuel dist (visited.set u true) := by
          simp only [dijkLoop, hsel, hg]
        rw [hstep]
        exact ih dist (visited.set u true) (by omega)
      | some neigh =>
        cases hrel : relaxAll u du neigh dist with
        | ok dist2 =>
          have hstep : dijkLoop g (fuel + 1) dist visited =
              dijkLoop g fuel dist2 (visited.set u true) := by
            simp only [dijkLoop, hsel, hg, hrel]
          rw [hstep]
          exact ih dist2 (visited.set u true) (by omega)
        | err e =>
          have hstep : dijkLoop g (fuel + 1) dist visited = .err e := by
            simp only [dijkLoop, hsel, hg, hrel]
          rw [hstep]
          simp
        | panicked =>
          have hstep : dijkLoop g (fuel + 1) dist visited = .panicked := by
            simp only [dijkLoop, hsel, hg, hrel]
          rw [hstep]
          simp
        | fuelOut => exact absurd hrel (relaxAll_ne_fuelOut u du neigh dist)

theorem dijkLoop_no_panic (g : List (List (Nat × Nat)))
    (hwf : ∀ l ∈ g, ∀ e ∈ l, e.1 < g.length) :
    ∀ (fuel : Nat) (dist : List (Option Nat)) (visited : List Bool),
      dist.length = g.length →
      dijkLoop g fuel dist visited ≠ .panicked := by
  intro fuel
  induction fuel with
  | zero =>
    intro dist visited hlen
    cases hsel : selectMin (candidates dist visited) with
    | none =>
      have hstep : dijkLoop g 0 dist visited = .ok dist := by
        simp only [dijkLoop, hsel]
      rw [hstep]
      simp
    | some p =>
      have hstep : dijkLoop g 0 dist visited = .fuelOut := by
        simp only [dijkLoop, hsel]
      rw [hstep]
      simp
  | succ fuel ih =>
    intro dist visited hlen
    cases hsel : selectMin (candidates dist visited) with
    | none =>
      have hstep : dijkLoop g (fuel + 1) dist visited = .ok dist := by
        simp only [dijkLoop, hsel]
      rw [hstep]
      simp
    | some p =>
      obtain ⟨u, du⟩ := p
      cases hg : g[u]? with
      | none =>
        have hstep : dijkLoop g (fuel + 1) dist visited =
            dijkLoop g fuel dist (visited.set u true) := by
          simp only [dijkLoop, hsel, hg]
        rw [hstep]
        exact ih dist (visited.set u true) hlen
      | some neigh =>
        cases hrel : relaxAll u du neigh dist with
        | ok dist2 =>
          have hstep : dijkLoop g (fuel + 1) dist visited =
              dijkLoop g fuel dist2 (visited.set u true) := by
            simp only [dijkLoop, hsel, hg, hrel]
          rw [hstep]
          obtain ⟨hl2, _⟩ := relaxAll_ok_spec u du neigh dist dist2 hrel
          exact ih dist2 (visited.set u true) (hl2.trans hlen)
        | err e =>
          have hstep : dijkLoop g (fuel + 1) dist visited = .err e := by
            simp only [dijkLoop, hsel, hg, hrel]
          rw [hstep]
          simp
        | panicked =>
          obtain ⟨e, he, hb⟩ := relaxAll_panicked u du neigh dist hrel
          have := hwf neigh (List.getElem?_mem hg) e he
          omega
        | fuelOut => exact absurd hrel (relaxAll_ne_fuelOut u du neigh dist)

/-- Typed errors out of the dijkstra loop are always overflow errors on a
real edge of the graph. -/
theorem dijkLoop_err (g : List (List (Nat × Nat))) :
    ∀ (fuel : Nat) (dist : List (Option Nat)) (visited : List Bool)
      (e : GraphError), dijkLoop g fuel dist visited = .err e →
      ∃ a b c w, e = .DistanveOverflow a b c w ∧ u32Max < c + w ∧
        ∃ l, g[a]? = some l ∧ (b, w) ∈ l := by
  intro fuel
  induction fuel with
  | zero =>
    intro dist visited e h
    cases hsel : selectMin (candidates dist visited) with
    | none =>
      have hstep : dijkLoop g 0 dist visited = .ok dist := by
        simp only [dijkLoop, hsel]
      rw [hstep] at h
      exact Outcome.noConfusion h
    | some p =>
      have hstep : dijkLoop g 0 dist visited = .fuelOut := by
        simp only [dijkLoop, hsel]
      rw [hstep] at h
      exact Outcome.noConfusion h
  | succ fuel ih =>
    intro dist visited e h
    cases hsel : selectMin (candidates dist visited) with
    | none =>
      have hstep : dijkLoop g (fuel + 1) dist visited = .ok dist := by
        simp only [dijkLoop, hsel]
      rw [hstep] at h
      exact Outcome.noConfusion h
    | some p =>
      obtain ⟨u, du⟩ := p
      cases hg : g[u]? with
      | none =>
        have hstep : dijkLoop g (fuel + 1) dist visited =
            dijkLoop g fuel dist (visited.set u true) := by
          simp only [dijkLoop, hsel, hg]
        rw [hstep] at h
        exact ih dist (visited.set u true) e h
      | some neigh =>
        cases hrel : relaxAll u du neigh dist with
        | ok dist2 =>
          have hstep : dijkLoop g (fuel + 1) dist visited =
              dijkLoop g fuel dist2 (visited.set u true) := by
            simp only [dijkLoop, hsel, hg, hrel]
          rw [hstep] at h
          exact ih dist2 (visited.set u true) e h
        | err e' =>
          have hstep : dijkLoop g (fuel + 1) dist visited = .err e' := by
            simp only [dijkLoop, hsel, hg, hrel]
          rw [hstep] at h
          obtain rfl : e' = e := by injection h
          obtain ⟨b, w, he, hm, hb⟩ := relaxAll_err u du neigh dist e' hrel
          exact ⟨u, b, du, w, he, hb, neigh, hg, hm⟩
        | panicked =>
          have hstep : dijkLoop g (fuel + 1) dist visited = .panicked := by
            simp only [dijkLoop, hsel, hg, hrel]
          rw [hstep] at h
          exact Outcome.noConfusion h
        | fuelOut => exact absurd hrel (relaxAll_ne_fuelOut u du neigh dist)

/-- All distances the dijkstra loop ever stores fit in u32. -/
theorem dijkLoop_bound (g : List (List (Nat × Nat))) :
    ∀ (fuel : Nat) (dist : List (Option Nat)) (visited : List Bool),
      (∀ v dv : Nat, dist[v]? = some (some dv) → dv ≤ u32Max) →
      ∀ res : List (Option Nat), dijkLoop g fuel dist visited = .ok res →
      ∀ v dv : Nat, res[v]? = some (some dv) → dv ≤ u32Max := by
  intro fuel
  induction fuel with
  | zero =>
    intro dist visited hbound res h
    cases hsel : selectMin (candidates dist visited) with
    | none =>
      have hstep : dijkLoop g 0 dist visited = .ok dist := by
        simp only [dijkLoop, hsel]
      rw [hstep] at h
      obtain rfl : dist = res := by injection h
      exact hbound
    | some p =>
      have hstep : dijkLoop g 0 dist visited = .fuelOut := by
        simp only [dijkLoop, hsel]
      rw [hstep] at h
      exact Outcome.noConfusion h
  | succ fuel ih =>
    intro dist visited hbound res h
    cases hsel : selectMin (candidates dist visited) with
    | none =>
      have hstep : dijkLoop g (fuel + 1) dist visited = .ok dist := by
        simp only [dijkLoop, hsel]
      rw [hstep] at h
      obtain rfl : dist = res := by injection h
      exact hbound
    | some p =>
      obtain ⟨u, du⟩ := p
      cases hg : g[u]? with
      | none =>
        have hstep : dijkLoop g (fuel + 1) dist visited =
            dijkLoop g fuel dist (visited.set u true) := by
          simp only [dijkLoop, hsel, hg]
        rw [hstep] at h
        exact ih dist (visited.set u true) hbound res h
      | some neigh =>
        cases hrel : relaxAll u du neigh dist with
        | ok dist2 =>
          have hstep : dijkLoop g (fuel + 1) dist visited =
              dijkLoop g fuel dist2 (visited.set u true) := by
            simp only [dijkLoop, hsel, hg, hrel]
          rw [hstep] at h
          obtain ⟨_, _, horig, _⟩ := relaxAll_ok_spec u du neigh dist dist2 hrel
          refine ih dist2 (visited.set u true) ?_ res h
          intro v dv hv
          rcases horig v dv hv with hOld | ⟨w, _, hEq, hb⟩
          · exact hbound v dv hOld
          · omega
        | err e =>
          have hstep : dijkLoop g (fuel + 1) dist visited = .err e := by
            simp only [dijkLoop, hsel, hg, hrel]
          rw [hstep] at h
          exact Outcome.noConfusion h
        | panicked =>
          have hstep : dijkLoop g (fuel + 1) dist visited = .panicked := by
            simp only [dijkLoop, hsel, hg, hrel]
          rw [hstep] at h
          exact Outcome.noConfusion h
        | fuelOut => exact absurd hrel (relaxAll_ne_fuelOut u du neigh dist)

/-! ### Entry-point wrappers for dijkstra -/

theorem dijkstra_run (G : Graph Weighted) (s : Nat) (hwf : G.WF)
    (hs : s < G.graph.length) :
    ∀ res : List (Option Nat), G.dijkstra s = .ok res →
      res.length = G.graph.length ∧
      (∀ v dv : Nat, res[v]? = some (some dv) → IsShortest G s v dv) ∧
      (∀ v : Nat, v < G.graph.length → res[v]? = some none →
        ∀ c, ¬ Reach G s v c) := by
  intro res hrun
  have hslt : s < (List.replicate G.graph.length (none : Option Nat)).length := by
    simpa using hs
  have hrun' : dijkLoop G.graph G.graph.length
      ((List.replicate G.graph.length (none : Option Nat)).set s (some 0))
      (List.replicate G.graph.length false) = .ok res := by
    simpa only [Graph.dijkstra, if_neg (by omega : ¬ s ≥ G.graph.length)]
      using hrun
  refine dijkLoop_correct G s hwf hs G.graph.length _ _
    (by simp) (by simp) (List.getElem?_set_eq_of_lt _ hslt) ?_ ?_ ?_ res hrun'
  · intro v dv hv
    rcases eq_or_ne v s with rfl | hne
    · rw [List.getElem?_set_eq_of_lt _ hslt] at hv
      obtain rfl : dv = 0 := by
        exact (Option.some.inj (Option.some.inj hv)).symm
      exact Reach.base
    · rw [List.getElem?_set_ne (Ne.symm hne), List.getElem?_replicate] at hv
      split at hv
      · exact absurd (Option.some.inj hv) (by simp)
      · exact Option.noConfusion hv
  · intro v hv
    rw [List.getElem?_replicate] at hv
    split at hv
    · exact absurd (Option.some.inj hv) (by simp)
    · exact Option.noConfusion hv
  · intro u du hu
    rw [List.getElem?_replicate] at hu
    split at hu
    · exact absurd (Option.some.inj hu) (by simp)
    · exact Option.noConfusion hu

theorem dijkstra_err_char (G : Graph Weighted) (s : Nat) (e : GraphError)
    (h : G.dijkstra s = .err e) :
    (e = .OutOfBoundsNode s ∧ G.graph.length ≤ s) ∨
    (∃ a b c w, e = .DistanveOverflow a b c w ∧ u32Max < c + w ∧
      ∃ l, G.graph[a]? = some l ∧ (b, w) ∈ l) := by
  by_cases hge : s ≥ G.graph.length
  · left
    have : (.err (.OutOfBoundsNode s) : Outcome (List (Option Nat))) = .err e := by
      simpa only [Graph.dijkstra, if_pos hge] using h
    have he : GraphError.OutOfBoundsNode s = e := by injection this
    exact ⟨he.symm, hge⟩
  · right
    have h' : dijkLoop G.graph G.graph.length
        ((List.replicate G.graph.length (none : Option Nat)).set s (some 0))
        (List.replicate G.graph.length false) = .err e := by
      simpa only [Graph.dijkstra, if_neg hge] using h
    obtain ⟨a, b, c, w, he, hb, l, hl, hm⟩ := dijkLoop_err G.graph _ _ _ e h'
    exact ⟨a, b, c, w, he, hb, l, hl, hm⟩

theorem dijkstra_ok_bound (G : Graph Weighted) (s : Nat)
    (res : List (Option Nat)) (h : G.dijkstra s = .ok res) :
    ∀ v dv : Nat, res[v]? = some (some dv) → dv ≤ u32Max := by
  by_cases hge : s ≥ G.graph.length
  · have : (.err (.OutOfBoundsNode s) : Outcome (List (Option Nat))) = .ok res := by
      simpa only [Graph.dijkstra, if_pos hge] using h
    exact Outcome.noConfusion this
  · have h' : dijkLoop G.graph G.graph.length
        ((List.replicate G.graph.length (none : Option Nat)).set s (some 0))
        (List.replicate G.graph.length false) = .ok res := by
      simpa only [Graph.dijkstra, if_neg hge] using h
    refine dijkLoop_bound G.graph _ _ _ ?_ res h'
    intro v dv hv
    rcases eq_or_ne v s with rfl | hne
    · rw [List.getElem?_set_eq_of_lt _ (by simpa using Nat.lt_of_not_le hge)]
        at hv
      obtain rfl : dv = 0 := (Option.some.inj (Option.some.inj hv)).symm
      simp [u32Max]
    · rw [List.getElem?_set_ne (Ne.symm hne), List.getElem?_replicate] at hv
      split at hv
      · exact absurd (Option.some.inj hv) (by simp)
      · exact Option.noConfusion hv

theorem dijkstra_returns (G : Graph Weighted) (s : Nat) (hwf : G.WF)
    (hs : s < G.graph.length) :
    G.dijkstra s ≠ .panicked ∧ G.dijkstra s ≠ .fuelOut := by
  have hne : ¬ s ≥ G.graph.length := by omega
  constructor
  · intro h
    have h' : dijkLoop G.graph G.graph.length
        ((List.replicate G.graph.length (none : Option Nat)).set s (some 0))
        (List.replicate G.graph.length false) = .panicked := by
      simpa only [Graph.dijkstra, if_neg hne] using h
    exact dijkLoop_no_panic G.graph hwf _ _ _ (by simp) h'
  · intro h
    have h' : dijkLoop G.graph G.graph.length
        ((List.replicate G.graph.length (none : Option Nat)).set s (some 0))
        (List.replicate G.graph.length false) = .fuelOut := by
      simpa only [Graph.dijkstra, if_neg hne] using h
    exact dijkLoop_fuel G.graph _ _ _ (by simp [countFalse]) h'

/-! ### Entry-point error wrappers for bfs and dfs -/

theorem bfs_err_iff {W : Type} (g : Graph W) (s m : Nat) :
    g.bfs s = .err (.OutOfBoundsNode m) ↔ m = s ∧ g.graph.length ≤ s := by
  by_cases hge : s ≥ g.graph.length
  · simp only [Graph.bfs, if_pos hge]
    constructor
    · intro h
      have h2 : GraphError.OutOfBoundsNode s = GraphError.OutOfBoundsNode m := by
        injection h
      have h3 : s = m := by injection h2
      exact ⟨h3.symm, hge⟩
    · rintro ⟨rfl, _⟩
      rfl
  · simp only [Graph.bfs, if_neg hge]
    constructor
    · intro h
      exact absurd h (bfsLoop_ne_err _ _ _ _ _ _)
    · rintro ⟨rfl, hle⟩
      omega
  
theorem dfs_err_iff {W : Type} (g : Graph W) (s m : Nat) :
    g.dfs s = .err (.OutOfBoundsNode m) ↔ m = s ∧ g.graph.length ≤ s := by
  by_cases hge : s ≥ g.graph.length
  · simp only [Graph.dfs, if_pos hge]
    constructor
    · intro h
      have h2 : GraphError.OutOfBoundsNode s = GraphError.OutOfBoundsNode m := by
        injection h
      have h3 : s = m := by injection h2
      exact ⟨h3.symm, hge⟩
    · rintro ⟨rfl, _⟩
      rfl
  · simp only [Graph.dfs, if_neg hge]
    constructor
    · intro h
      exact absurd h (dfsLoop_ne_err _ _ _ _ _ _)
    · rintro ⟨rfl, hle⟩
      omega

theorem dijkstra_err_oob_iff (g : Graph Weighted) (s m : Nat) :
    g.dijkstra s = .err (.OutOfBoundsNode m) ↔ m = s ∧ g.graph.length ≤ s := by
  constructor
  · intro h
    rcases dijkstra_err_char g s _ h with ⟨he, hge⟩ | ⟨a, b, c, w, he, _⟩
    · have : m = s := by injection he
      exact ⟨this, hge⟩
    · exact absurd he (by simp)
  · rintro ⟨rfl, hle⟩
    simp only [Graph.dijkstra, if_pos hle]

theorem bfs_panicked_char {W : Type} (g : Graph W) (s : Nat)
    (h : g.bfs s = .panicked) :
    ∃ l ∈ g.graph, ∃ e ∈ l, g.graph.length ≤ e.1 := by
  by_cases hge : s ≥ g.graph.length
  · simp only [Graph.bfs, if_pos hge] at h
    exact Outcome.noConfusion h
  · simp only [Graph.bfs, if_neg hge] at h
    exact bfsLoop_panicked g.graph _ _ _ _ (by simp) h

theorem dfs_panicked_char {W : Type} (g : Graph W) (s : Nat)
    (h : g.dfs s = .panicked) :
    ∃ l ∈ g.graph, ∃ e ∈ l, g.graph.length ≤ e.1 := by
  by_cases hge : s ≥ g.graph.length
  · simp only [Graph.dfs, if_pos hge] at h
    exact Outcome.noConfusion h
  · simp only [Graph.dfs, if_neg hge] at h
    exact dfsLoop_panicked g.graph _ _ _ _ (by simp) h

theorem dijkstra_panicked_char (g : Graph Weighted) (s : Nat)
    (h : g.dijkstra s = .panicked) :
    ∃ l ∈ g.graph, ∃ e ∈ l, g.graph.length ≤ e.1 := by
  by_cases hge : s ≥ g.graph.length
  · simp only [Graph.dijkstra, if_pos hge] at h
    exact Outcome.noConfusion h
  · simp only [Graph.dijkstra, if_neg hge] at h
    by_contra hno
    push_neg at hno
    exact dijkLoop_no_panic g.graph
      (fun l hl e he => hno l hl e he) _ _ _ (by simp) h

/-! ### Random graph generation (lib.rs 138-159, 204-253) -/

/-- Oracle for the random draws of random_graph.  coin i j models the
comparison r < probability for the candidate pair (i, j) (lib.rs 152-153);
weight i j seeds the value rng.random_range(1..=10) draws when the pair
(i, j) is inserted, mapped into 1..10 by drawWeight.  Quantifying over all
oracles covers every probability and every sequence of random draws. -/
structure Rng where
  coin : Nat → Nat → Bool
  weight : Nat → Nat → Nat

/-- The weight drawn by rng.random_range(1..=10) for the pair (i, j): a
value in [1, 10]. -/
def drawWeight (rng : Rng) (i j : Nat) : Nat := rng.weight i j % 10 + 1

/-- Append an edge to the adjacency list of node i (the get_mut + push of
lib.rs 216-220 / 240-244).  The out-of-range branch aborts in Rust; it is
unreachable from random_graph because the loop bounds keep i < num_nodes,
so it is modelled as the identity. -/
def pushEdge {W : Type} (g : List (List (Nat × W))) (i : Nat)
    (e : Nat × W) : List (List (Nat × W)) :=
  match g[i]? with
  | some l => g.set i (l ++ [e])
  | none => g

/-- InsertEdge for Unweighted (lib.rs 208-229). -/
def insert_edge_unweighted (g : List (List (Nat × Unweighted)))
    (i j : Nat) (is_directed : Bool) : List (List (Nat × Unweighted)) :=
  let g1 := pushEdge g i (j, ())
  if is_directed then g1 else pushEdge g1 j (i, ())

/-- InsertEdge for Weighted (lib.rs 231-253): a single weight is drawn and
pushed for both directions in the undirected case. -/
def insert_edge_weighted (rng : Rng) (g : List (List (Nat × Weighted)))
    (i j : Nat) (is_directed : Bool) : List (List (Nat × Weighted)) :=
  let w := drawWeight rng i j
  let g1 := pushEdge g i (j, w)
  if is_directed then g1 else pushEdge g1 j (i, w)

/-- Graph::random_graph (lib.rs 144-159) for Weighted: for i in
0..num_nodes and j in z..num_nodes with z = 0 when directed and z = i + 1
when undirected, insert the edge when the random draw is below the
probability (modelled by the coin oracle). -/
def random_graph_weighted (num_nodes : Nat) (rng : Rng)
    (is_directed : Bool) : Graph Weighted :=
  ⟨(List.range num_nodes).foldl
    (fun g i =>
      (List.range' (if is_directed then 0 else i + 1)
          (num_nodes - (if is_directed then 0 else i + 1))).foldl
        (fun g2 j =>
          if rng.coin i j then insert_edge_weighted rng g2 i j is_directed
          else g2) g)
    (List.replicate num_nodes [])⟩

/-- Graph::random_graph (lib.rs 144-159) for Unweighted. -/
def random_graph_unweighted (num_nodes : Nat) (rng : Rng)
    (is_directed : Bool) : Graph Unweighted :=
  ⟨(List.range num_nodes).foldl
    (fun g i =>
      (List.range' (if is_directed then 0 else i + 1)
          (num_nodes - (if is_directed then 0 else i + 1))).foldl
        (fun g2 j =>
          if rng.coin i j then insert_edge_unweighted g2 i j is_directed
          else g2) g)
    (List.replicate num_nodes [])⟩

/-! ### Edge enumeration lemmas -/

theorem mem_edges {W : Type} (g : List (List (Nat × W))) (a b : Nat)
    (w : W) :
    (a, b, w) ∈ (Graph.mk g).edges ↔
      ∃ l, g[a]? = some l ∧ (b, w) ∈ l := by
  unfold Graph.edges
  simp only [List.mem_flatten, List.mem_map]
  constructor
  · rintro ⟨m, ⟨p, hp, rfl⟩, hm⟩
    obtain ⟨e, he, heq⟩ := List.mem_map.mp hm
    obtain ⟨rfl, rfl, rfl⟩ : p.1 = a ∧ e.1 = b ∧ e.2 = w := by
      refine ⟨congrArg (fun t => t.1) heq, ?_, ?_⟩
      · exact congrArg (fun t => t.2.1) heq
      · exact congrArg (fun t => t.2.2) heq
    refine ⟨p.2, ?_, by simpa using he⟩
    have := List.mk_mem_enum_iff_getElem?.mp (by simpa using hp)
    simpa using this
  · rintro ⟨l, hl, hm⟩
    refine ⟨l.map (fun e => (a, e.1, e.2)), ⟨(a, l), ?_, rfl⟩, ?_⟩
    · exact List.mk_mem_enum_iff_getElem?.mpr hl
    · exact List.mem_map.mpr ⟨(b, w), hm, rfl⟩

theorem length_pushEdge {W : Type} (g : List (List (Nat × W))) (i : Nat)
    (e : Nat × W) : (pushEdge g i e).length = g.length := by
  unfold pushEdge
  cases hg : g[i]? with
  | none => rfl
  | some l => simp

theorem mem_edges_pushEdge {W : Type} (g : List (List (Nat × W)))
    (i : Nat) (e0 : Nat × W) (a b : Nat) (w : W) :
    (a, b, w) ∈ (Graph.mk (pushEdge g i e0)).edges ↔
      (a, b, w) ∈ (Graph.mk g).edges ∨
        (i < g.length ∧ a = i ∧ b = e0.1 ∧ w = e0.2) := by
  rw [mem_edges, mem_edges]
  unfold pushEdge
  cases hg : g[i]? with
  | none =>
    constructor
    · exact fun h => Or.inl h
    · rintro (h | ⟨hlt, _⟩)
      · exact h
      · exact absurd (List.getElem?_eq_none_iff.mp hg) (by omega)
  | some li =>
    have hilt : i < g.length := (List.getElem?_eq_some.mp hg).1
    constructor
    · rintro ⟨l, hl, hm⟩
      rcases eq_or_ne a i with rfl | hne
      · rw [List.getElem?_set_eq_of_lt _ hilt] at hl
        obtain rfl : li ++ [e0] = l := by injection hl
        rcases List.mem_append.mp hm with hm' | hm'
        · exact Or.inl ⟨li, hg, hm'⟩
        · obtain rfl : (b, w) = e0 := by simpa using hm'
          exact Or.inr ⟨hilt, rfl, rfl, rfl⟩
      · rw [List.getElem?_set_ne (Ne.symm hne)] at hl
        exact Or.inl ⟨l, hl, hm⟩
    · rintro (⟨l, hl, hm⟩ | ⟨_, rfl, rfl, rfl⟩)
      · rcases eq_or_ne a i with rfl | hne
        · obtain rfl : li = l := by
            rw [hg] at hl
            injection hl
          exact ⟨li ++ [e0], List.getElem?_set_eq_of_lt _ hilt,
            List.mem_append_left _ hm⟩
        · exact ⟨l, by rwa [List.getElem?_set_ne (Ne.symm hne)], hm⟩
      · exact ⟨li ++ [e0], List.getElem?_set_eq_of_lt _ hilt,
          List.mem_append_right _ (by simp)⟩

theorem edges_replicate_nil {W : Type} (n : Nat) (a b : Nat) (w : W) :
    ¬ (a, b, w) ∈ (Graph.mk (List.replicate n ([] : List (Nat × W)))).edges := by
  rw [mem_edges]
  rintro ⟨l, hl, hm⟩
  rw [List.getElem?_replicate] at hl
  split at hl
  · obtain rfl : ([] : List (Nat × W)) = l := by injection hl
    cases hm
  · exact Option.noConfusion hl

theorem foldl_inv {α β : Type} (P : β → Prop) (f : β → α → β) :
    ∀ (l : List α) (b : β), P b →
      (∀ b' a, a ∈ l → P b' → P (f b' a)) → P (l.foldl f b) := by
  intro l
  induction l with
  | nil => intro b hb _; exact hb
  | cons x t ih =>
    intro b hb hstep
    exact ih (f b x) (hstep b x (List.mem_cons_self _ _) hb)
      (fun b' a ha => hstep b' a (List.mem_cons_of_mem _ ha))

/-- Undirected weighted generation: node count is preserved, no self-loops
are created, and every inserted edge is mirrored with the same weight. -/
theorem random_w_undirected_inv (num_nodes : Nat) (rng : Rng) :
    (random_graph_weighted num_nodes rng false).graph.length = num_nodes ∧
    ∀ (a b w : Nat),
      (a, b, w) ∈ (random_graph_weighted num_nodes rng false).edges →
      a ≠ b ∧ (b, a, w) ∈ (random_graph_weighted num_nodes rng false).edges := by
  unfold random_graph_weighted
  refine foldl_inv
    (fun gl => gl.length = num_nodes ∧ ∀ (a b w : Nat),
      (a, b, w) ∈ (Graph.mk gl).edges →
      a ≠ b ∧ (b, a, w) ∈ (Graph.mk gl).edges) _ _ _
    ⟨?_, fun a b w h => absurd h (edges_replicate_nil _ _ _ _)⟩ ?_
  · simp
  intro gl i hi hP
  have hilt : i < num_nodes := List.mem_range.mp hi
  refine foldl_inv
    (fun gl2 => gl2.length = num_nodes ∧ ∀ (a b w : Nat),
      (a, b, w) ∈ (Graph.mk gl2).edges →
      a ≠ b ∧ (b, a, w) ∈ (Graph.mk gl2).edges) _ _ _ hP ?_
  intro g2 j hj hP2
  have hjmem := List.mem_range'_1.mp hj
  rw [show (if (false : Bool) = true then 0 else i + 1) = i + 1 from rfl]
    at hjmem
  have hij : i < j ∧ j < num_nodes := by
    rcases hjmem with ⟨h1, h2⟩
    constructor
    · omega
    · omega
  by_cases hcoin : rng.coin i j
  · rw [if_pos hcoin]
    obtain ⟨hlen2, hsym2⟩ := hP2
    have hstep : insert_edge_weighted rng g2 i j false =
        pushEdge (pushEdge g2 i (j, drawWeight rng i j)) j
          (i, drawWeight rng i j) := rfl
    rw [hstep]
    have hlen3 : (pushEdge g2 i (j, drawWeight rng i j)).length = num_nodes := by
      rw [length_pushEdge]; exact hlen2
    constructor
    · rw [length_pushEdge]; exact hlen3
    · intro a b w h
      rw [mem_edges_pushEdge] at h
      rcases h with h | ⟨hjl, rfl, rfl, rfl⟩
      · rw [mem_edges_pushEdge] at h
        rcases h with h | ⟨hil, rfl, rfl, rfl⟩
        · obtain ⟨hne, hmir⟩ := hsym2 a b w h
          refine ⟨hne, ?_⟩
          rw [mem_edges_pushEdge, mem_edges_pushEdge]
          exact Or.inl (Or.inl hmir)
        · -- the freshly inserted (i, j, w) edge
          refine ⟨by omega, ?_⟩
          rw [mem_edges_pushEdge]
          exact Or.inr ⟨by omega, rfl, rfl, rfl⟩
      · -- the freshly inserted mirror (j, i, w) edge
        refine ⟨by omega, ?_⟩
        rw [mem_edges_pushEdge, mem_edges_pushEdge]
        exact Or.inl (Or.inr ⟨by omega, rfl, rfl, rfl⟩)
  · rw [if_neg hcoin]
    exact hP2

/-- Undirected unweighted generation: same invariant. -/
theorem random_u_undirected_inv (num_nodes : Nat) (rng : Rng) :
    (random_graph_unweighted num_nodes rng false).graph.length = num_nodes ∧
    ∀ (a b : Nat) (w : Unweighted),
      (a, b, w) ∈ (random_graph_unweighted num_nodes rng false).edges →
      a ≠ b ∧ (b, a, w) ∈ (random_graph_unweighted num_nodes rng false).edges := by
  unfold random_graph_unweighted
  refine foldl_inv
    (fun gl => gl.length = num_nodes ∧ ∀ (a b : Nat) (w : Unweighted),
      (a, b, w) ∈ (Graph.mk gl).edges →
      a ≠ b ∧ (b, a, w) ∈ (Graph.mk gl).edges) _ _ _
    ⟨?_, fun a b w h => absurd h (edges_replicate_nil _ _ _ _)⟩ ?_
  · simp
  intro gl i hi hP
  have hilt : i < num_nodes := List.mem_range.mp hi
  refine foldl_inv
    (fun gl2 => gl2.length = num_nodes ∧ ∀ (a b : Nat) (w : Unweighted),
      (a, b, w) ∈ (Graph.mk gl2).edges →
      a ≠ b ∧ (b, a, w) ∈ (Graph.mk gl2).edges) _ _ _ hP ?_
  intro g2 j hj hP2
  have hjmem := List.mem_range'_1.mp hj
  rw [show (if (false : Bool) = true then 0 else i + 1) = i + 1 from rfl]
    at hjmem
  have hij : i < j ∧ j < num_nodes := by
    rcases hjmem with ⟨h1, h2⟩
    constructor
    · omega
    · omega
  by_cases hcoin : rng.coin i j
  · rw [if_pos hcoin]
    obtain ⟨hlen2, hsym2⟩ := hP2
    have hstep : insert_edge_unweighted g2 i j false =
        pushEdge (pushEdge g2 i (j, ())) j (i, ()) := rfl
    rw [hstep]
    have hlen3 : (pushEdge g2 i (j, ())).length = num_nodes := by
      rw [length_pushEdge]; exact hlen2
    constructor
    · rw [length_pushEdge]; exact hlen3
    · intro a b w h
      rw [mem_edges_pushEdge] at h
      rcases h with h | ⟨hjl, rfl, rfl, rfl⟩
      · rw [mem_edges_pushEdge] at h
        rcases h with h | ⟨hil, rfl, rfl, rfl⟩
        · obtain ⟨hne, hmir⟩ := hsym2 a b w h
          refine ⟨hne, ?_⟩
          rw [mem_edges_pushEdge, mem_edges_pushEdge]
          exact Or.inl (Or.inl hmir)
        · refine ⟨by omega, ?_⟩
          rw [mem_edges_pushEdge]
          exact Or.inr ⟨by omega, rfl, rfl, rfl⟩
      · refine ⟨by omega, ?_⟩
        rw [mem_edges_pushEdge, mem_edges_pushEdge]
        exact Or.inl (Or.inr ⟨by omega, rfl, rfl, rfl⟩)
  · rw [if_neg hcoin]
    exact hP2

/-- An oracle whose every coin lands below the probability. -/
def allCoins : Rng := ⟨fun _ _ => true, fun _ _ => 0⟩

/-! ### Concrete graphs used in counterexamples and witnesses -/

/-- Two-node weighted graph with in-range targets whose weights force a
distance overflow during the second relaxation. -/
def gOverflow : Graph Weighted := ⟨[[(1, u32Max)], [(0, u32Max)]]⟩

/-- One-node unweighted graph whose single adjacency entry points at the
nonexistent node 5. -/
def gBadTarget : Graph Unweighted := ⟨[[(5, ())]]⟩

/-- One-node weighted graph whose single adjacency entry points at the
nonexistent node 5. -/
def gBadTargetW : Graph Weighted := ⟨[[(5, 1)]]⟩

/-! ### Claim theorems -/

/-- C1 counterexample: gOverflow satisfies the stated hypotheses (all
adjacency targets in range, start 0 valid), yet dijkstra(0) does not
return a distance vector at all - it stops with a DistanveOverflow
error. -/
theorem dijkstra_overflow_returns_error :
    gOverflow.WF ∧ 0 < gOverflow.graph.length ∧
    gOverflow.dijkstra 0 = .err (.DistanveOverflow 1 0 u32Max u32Max) :=
  ⟨by decide, by decide, by decide⟩

/-- C1 (amended): for every weighted graph whose adjacency targets are all
in range and every valid start, whenever dijkstra returns Ok (that is,
unless a relaxation overflows u32, which instead yields a typed
DistanveOverflow error), the result has one entry per node, every Some
entry is the length of a shortest path from the start, and every None
entry marks a node unreachable from the start; in particular on the
15-node fixture dijkstra(0) and dijkstra(10) return the two stated
vectors. -/
theorem dijkstra_shortest_paths :
    (∀ (g : Graph Weighted) (s : Nat), g.WF → s < g.graph.length →
      ∀ res : List (Option Nat), g.dijkstra s = .ok res →
        res.length = g.graph.length ∧
        (∀ v dv : Nat, res[v]? = some (some dv) → IsShortest g s v dv) ∧
        (∀ v : Nat, v < g.graph.length → res[v]? = some none →
          ∀ c, ¬ Reach g s v c)) ∧
    (∀ (g : Graph Weighted) (s : Nat), g.WF → s < g.graph.length →
      (∃ res, g.dijkstra s = .ok res) ∨
      (∃ a b c w, g.dijkstra s = .err (.DistanveOverflow a b c w))) ∧
    TEST_GRAPH_WEIGHTED.dijkstra 0 = .ok
      [some 0, some 3, some 1, some 4, some 10, some 9, some 7, some 13,
       some 15, some 11, none, none, none, none, none] ∧
    TEST_GRAPH_WEIGHTED.dijkstra 10 = .ok
      [none, none, none, none, none, none, none, none, none, none,
       some 0, some 3, some 7, some 9, none] := by
  refine ⟨?_, ?_, by decide, by decide⟩
  · intro g s hwf hs res h
    exact dijkstra_run g s hwf hs res h
  · intro g s hwf hs
    obtain ⟨hp, hf⟩ := dijkstra_returns g s hwf hs
    cases hr : g.dijkstra s with
    | ok res => exact Or.inl ⟨res, rfl⟩
    | err e =>
      rcases dijkstra_err_char g s e hr with ⟨_, hge⟩ |
        ⟨a, b, c, w, rfl, _⟩
      · omega
      · exact Or.inr ⟨a, b, c, w, rfl⟩
    | panicked => exact absurd hr hp
    | fuelOut => exact absurd hr hf

theorem dijkstra_shortest_paths_witness :
    IsShortest TEST_GRAPH_WEIGHTED 0 9 11 :=
  (dijkstra_shortest_paths.1 TEST_GRAPH_WEIGHTED 0 (by decide) (by decide)
    [some 0, some 3, some 1, some 4, some 10, some 9, some 7, some 13,
     some 15, some 11, none, none, none, none, none]
    (by decide)).2.1 9 11 (by decide)

/-- C3 counterexample: a graph with one adjacency entry whose target is
out of range; consuming it makes bfs, dfs and dijkstra abort with an
index-out-of-range abort instead of returning a typed GraphError. -/
theorem oob_target_panics :
    gBadTarget.bfs 0 = .panicked ∧
    gBadTarget.dfs 0 = .panicked ∧
    gBadTargetW.dijkstra 0 = .panicked :=
  ⟨by decide, by decide, by decide⟩

/-- C3 (amended): consuming an adjacency entry whose target is out of
range makes bfs, dfs and dijkstra abort (the Rust index panic), never
silently skip it: an abort happens only when such an entry exists, and the
typed errors of the three calls never report an adjacency target (bfs and
dfs only ever report the starting node, dijkstra additionally reports
overflow). -/
theorem oob_target_abort_semantics :
    (∀ {W : Type} (g : Graph W) (s : Nat),
      (g.bfs s = .panicked → ∃ l ∈ g.graph, ∃ e ∈ l, g.graph.length ≤ e.1) ∧
      (g.dfs s = .panicked → ∃ l ∈ g.graph, ∃ e ∈ l, g.graph.length ≤ e.1) ∧
      (∀ e : GraphError, g.bfs s = .err e → e = .OutOfBoundsNode s) ∧
      (∀ e : GraphError, g.dfs s = .err e → e = .OutOfBoundsNode s)) ∧
    (∀ (g : Graph Weighted) (s : Nat),
      (g.dijkstra s = .panicked →
        ∃ l ∈ g.graph, ∃ e ∈ l, g.graph.length ≤ e.1) ∧
      (∀ m : Nat, g.dijkstra s = .err (.OutOfBoundsNode m) →
        m = s ∧ g.graph.length ≤ s)) := by
  constructor
  · intro W g s
    refine ⟨bfs_panicked_char g s, dfs_panicked_char g s, ?_, ?_⟩
    · intro e he
      by_cases hge : s ≥ g.graph.length
      · simp only [Graph.bfs, if_pos hge] at he
        have h2 : GraphError.OutOfBoundsNode s = e := by injection he
        exact h2.symm
      · simp only [Graph.bfs, if_neg hge] at he
        exact absurd he (bfsLoop_ne_err _ _ _ _ _ _)
    · intro e he
      by_cases hge : s ≥ g.graph.length
      · simp only [Graph.dfs, if_pos hge] at he
        have h2 : GraphError.OutOfBoundsNode s = e := by injection he
        exact h2.symm
      · simp only [Graph.dfs, if_neg hge] at he
        exact absurd he (dfsLoop_ne_err _ _ _ _ _ _)
  · intro g s
    exact ⟨dijkstra_panicked_char g s,
      fun m hm => (dijkstra_err_oob_iff g s m).mp hm⟩

theorem oob_target_abort_semantics_witness :
    ∃ l ∈ gBadTarget.graph, ∃ e ∈ l, gBadTarget.graph.length ≤ e.1 :=
  (oob_target_abort_semantics.1 gBadTarget 0).1 (by decide)

/-- C4: each of the three algorithms returns the typed error
OutOfBoundsNode m exactly when the starting node is out of range, and then
m is the starting node itself - the error is never produced for an
internally generated index. -/
theorem out_of_bounds_start_error_iff :
    (∀ {W : Type} (g : Graph W) (s m : Nat),
      (g.bfs s = .err (.OutOfBoundsNode m) ↔
        m = s ∧ g.graph.length ≤ s) ∧
      (g.dfs s = .err (.OutOfBoundsNode m) ↔
        m = s ∧ g.graph.length ≤ s)) ∧
    (∀ (g : Graph Weighted) (s m : Nat),
      g.dijkstra s = .err (.OutOfBoundsNode m) ↔
        m = s ∧ g.graph.length ≤ s) := by
  constructor
  · intro W g s m
    exact ⟨bfs_err_iff g s m, dfs_err_iff g s m⟩
  · intro g s m
    exact dijkstra_err_oob_iff g s m

theorem out_of_bounds_start_error_iff_witness :
    TEST_GRAPH_UNWEIGHTED.bfs 6 = .err (.OutOfBoundsNode 6) :=
  (out_of_bounds_start_error_iff.1 TEST_GRAPH_UNWEIGHTED 6 6).1.mpr
    ⟨rfl, by decide⟩

/-- C5: a DistanveOverflow error out of dijkstra names a genuine edge
(b, w) out of node a stored in the graph whose relaxation c + w exceeds
u32Max, and the error is the entire result - in particular when dijkstra
does return distances, every returned distance fits in u32, so no
relaxation ever wrapped. -/
theorem dijkstra_overflow_error_exact (g : Graph Weighted) (s : Nat) :
    (∀ a b c w : Nat, g.dijkstra s = .err (.DistanveOverflow a b c w) →
      u32Max < c + w ∧ ∃ l, g.graph[a]? = some l ∧ (b, w) ∈ l) ∧
    (∀ res : List (Option Nat), g.dijkstra s = .ok res →
      ∀ v dv : Nat, res[v]? = some (some dv) → dv ≤ u32Max) := by
  constructor
  · intro a b c w h
    rcases dijkstra_err_char g s _ h with ⟨he, _⟩ |
      ⟨a', b', c', w', he, hb, l, hl, hm⟩
    · exact absurd he (by simp)
    · obtain ⟨rfl, rfl, rfl, rfl⟩ :
          a = a' ∧ b = b' ∧ c = c' ∧ w = w' := by
        refine ⟨?_, ?_, ?_, ?_⟩ <;> injection he
      exact ⟨hb, l, hl, hm⟩
  · intro res h
    exact dijkstra_ok_bound g s res h

theorem dijkstra_overflow_error_exact_witness :
    u32Max < u32Max + u32Max ∧
      ∃ l, gOverflow.graph[1]? = some l ∧ (0, u32Max) ∈ l :=
  (dijkstra_overflow_error_exact gOverflow 0).1 1 0 u32Max u32Max (by decide)

/-- C7 counterexample: with is_directed = true the generator iterates j
over the whole range 0..n including j = i, so a single-node directed graph
can receive the self-loop 0 -> 0 (weighted and unweighted alike). -/
theorem directed_self_loop :
    (0, 0, 1) ∈ (random_graph_weighted 1 allCoins true).edges ∧
    (0, 0, ()) ∈ (random_graph_unweighted 1 allCoins true).edges :=
  ⟨by decide, by decide⟩

/-- C7 (amended): undirected generation draws candidates only over pairs
i < j (with mirrors added separately), so undirected random graphs never
contain a self-loop; directed generation iterates j over the full range
0..n including j = i, so directed random graphs can contain self-loops. -/
theorem undirected_no_self_loops :
    (∀ (num_nodes : Nat) (rng : Rng) (e : Nat × Nat × Weighted),
      e ∈ (random_graph_weighted num_nodes rng false).edges →
      e.1 ≠ e.2.1) ∧
    (∀ (num_nodes : Nat) (rng : Rng) (e : Nat × Nat × Unweighted),
      e ∈ (random_graph_unweighted num_nodes rng false).edges →
      e.1 ≠ e.2.1) := by
  constructor
  · intro n rng e he
    obtain ⟨a, b, w⟩ := e
    exact ((random_w_undirected_inv n rng).2 a b w he).1
  · intro n rng e he
    obtain ⟨a, b, w⟩ := e
    exact ((random_u_undirected_inv n rng).2 a b w he).1

theorem undirected_no_self_loops_witness : (0 : Nat) ≠ 1 :=
  undirected_no_self_loops.1 2 allCoins (0, 1, 1) (by decide)

/-- C8: every edge of an undirected random graph has a mirrored edge with
the identical weight (in the Weighted case the single drawn weight is
reused for both directions, in the Unweighted case the payloads are both
the unit marker). -/
theorem undirected_symmetry :
    (∀ (num_nodes : Nat) (rng : Rng) (u v w : Nat),
      (u, v, w) ∈ (random_graph_weighted num_nodes rng false).edges →
      (v, u, w) ∈ (random_graph_weighted num_nodes rng false).edges) ∧
    (∀ (num_nodes : Nat) (rng : Rng) (u v : Nat) (w : Unweighted),
      (u, v, w) ∈ (random_graph_unweighted num_nodes rng false).edges →
      (v, u, w) ∈ (random_graph_unweighted num_nodes rng false).edges) :=
  ⟨fun n rng u v w h => ((random_w_undirected_inv n rng).2 u v w h).2,
   fun n rng u v w h => ((random_u_undirected_inv n rng).2 u v w h).2⟩

theorem undirected_symmetry_witness :
    (1, 0, 1) ∈ (random_graph_weighted 2 allCoins false).edges :=
  undirected_symmetry.1 2 allCoins 0 1 1 (by decide)

/-- C9: on a well-formed graph with a valid start, bfs and dfs return a
result list and dijkstra returns (its fuelled loop neither aborts nor runs
out): every call terminates. -/
theorem traversals_terminate :
    (∀ {W : Type} (g : Graph W) (s : Nat), g.WF → s < g.graph.length →
      (∃ res, g.bfs s = .ok res) ∧ (∃ res, g.dfs s = .ok res)) ∧
    (∀ (g : Graph Weighted) (s : Nat), g.WF → s < g.graph.length →
      g.dijkstra s ≠ .panicked ∧ g.dijkstra s ≠ .fuelOut) := by
  constructor
  · intro W g s hwf hs
    obtain ⟨rb, hb, _⟩ := bfs_run g s hwf hs
    obtain ⟨rd, hd, _⟩ := dfs_run g s hwf hs
    exact ⟨⟨rb, hb⟩, ⟨rd, hd⟩⟩
  · intro g s hwf hs
    exact dijkstra_returns g s hwf hs

theorem traversals_terminate_witness :
    TEST_GRAPH_WEIGHTED.dijkstra 0 ≠ .panicked ∧
    TEST_GRAPH_WEIGHTED.dijkstra 0 ≠ .fuelOut :=
  traversals_terminate.2 TEST_GRAPH_WEIGHTED 0 (by decide) (by decide)

/-- C10: on a well-formed graph with a valid start, each of the sequences
returned by bfs and dfs begins with the starting node and contains no node
more than once. -/
theorem traversal_starts_and_nodup {W : Type} (g : Graph W) (s : Nat)
    (hwf : g.WF) (hs : s < g.graph.length) :
    ∃ rb rd : List Nat, g.bfs s = .ok rb ∧ g.dfs s = .ok rd ∧
      rb.head? = some s ∧ rb.Nodup ∧ rd.head? = some s ∧ rd.Nodup := by
  obtain ⟨rb, hb, hhb, hnb, _⟩ := bfs_run g s hwf hs
  obtain ⟨rd, hd, hhd, hnd, _⟩ := dfs_run g s hwf hs
  exact ⟨rb, rd, hb, hd, hhb, hnb, hhd, hnd⟩

theorem traversal_starts_and_nodup_witness :
    ∃ rb rd : List Nat, TEST_GRAPH_UNWEIGHTED.bfs 4 = .ok rb ∧
      TEST_GRAPH_UNWEIGHTED.dfs 4 = .ok rd ∧
      rb.head? = some 4 ∧ rb.Nodup ∧ rd.head? = some 4 ∧ rd.Nodup :=
  traversal_starts_and_nodup TEST_GRAPH_UNWEIGHTED 4 (by decide) (by decide)

/-! ### C6: the explicit-stack dfs against a naive recursive DFS -/

/-- Fuel-free evaluation relation of the dfs main loop (only terminating
runs are derivable). -/
inductive DfsEval {W : Type} (g : List (List (Nat × W))) :
    List Nat → List Bool → List Nat → Outcome (List Nat) → Prop
  | nilE (lk : List Bool) (acc : List Nat) : DfsEval g [] lk acc (.ok acc)
  | popE {node : Nat} {st : List Nat} {lk : List Bool} {acc : List Nat}
      {neigh : List (Nat × W)} {r : Outcome (List Nat)} :
      g[node]? = some neigh → dfsFind neigh lk = some none →
      DfsEval g st lk acc r → DfsEval g (node :: st) lk acc r
  | pushE {node v : Nat} {st : List Nat} {lk : List Bool} {acc : List Nat}
      {neigh : List (Nat × W)} {r : Outcome (List Nat)} :
      g[node]? = some neigh → dfsFind neigh lk = some (some v) →
      DfsEval g (v :: node :: st) (lk.set v true) (acc ++ [v]) r →
      DfsEval g (node :: st) lk acc r

/-- Whatever the fuel, the fuelled dfs loop agrees with the evaluation
relation (or runs out of fuel). -/
theorem dfsEval_agrees {W : Type} (g : List (List (Nat × W)))
    {st : List Nat} {lk : List Bool} {acc : List Nat}
    {r : Outcome (List Nat)} (h : DfsEval g st lk acc r) :
    ∀ (fuel : Nat) (r' : Outcome (List Nat)),
      dfsLoop g fuel st lk acc = r' → r' = .fuelOut ∨ r' = r := by
  induction h with
  | nilE lk acc =>
    intro fuel r' h'
    right
    rw [← h']
    cases fuel <;> rfl
  | @popE node st lk acc neigh r hg hfind _ ih =>
    intro fuel r' h'
    cases fuel with
    | zero =>
      left
      rw [← h']
      rfl
    | succ fuel =>
      have hstep : dfsLoop g (fuel + 1) (node :: st) lk acc =
          dfsLoop g fuel st lk acc := by
        simp only [dfsLoop, hg, hfind]
      rw [hstep] at h'
      exact ih fuel r' h'
  | @pushE node v st lk acc neigh r hg hfind _ ih =>
    intro fuel r' h'
    cases fuel with
    | zero =>
      left
      rw [← h']
      rfl
    | succ fuel =>
      have hstep : dfsLoop g (fuel + 1) (node :: st) lk acc =
          dfsLoop g fuel (v :: node :: st) (lk.set v true) (acc ++ [v]) := by
        simp only [dfsLoop, hg, hfind]
      rw [hstep] at h'
      exact ih fuel r' h'

/-- Modelled from the spec: a naive recursive DFS that from the current
node always follows the first unvisited edge in stored adjacency order -
explore u (already marked and output): find the first unvisited target of
u; if there is one, mark it, output it, explore it recursively, and
continue exploring u; if there is none, return. -/
inductive RdfsEval {W : Type} (g : List (List (Nat × W))) :
    Nat → List Bool → List Nat → List Bool × List Nat → Prop
  | doneE {u : Nat} {lk : List Bool} {acc : List Nat} :
      dfsFind ((g[u]?).getD []) lk = some none →
      RdfsEval g u lk acc (lk, acc)
  | stepE {u v : Nat} {lk lk2 : List Bool} {acc acc2 : List Nat}
      {out : List Bool × List Nat} :
      dfsFind ((g[u]?).getD []) lk = some (some v) →
      RdfsEval g v (lk.set v true) (acc ++ [v]) (lk2, acc2) →
      RdfsEval g u lk2 acc2 out →
      RdfsEval g u lk acc out

theorem rdfsEval_det {W : Type} (g : List (List (Nat × W))) :
    ∀ {u : Nat} {lk : List Bool} {acc : List Nat}
      {o1 : List Bool × List Nat}, RdfsEval g u lk acc o1 →
      ∀ {o2 : List Bool × List Nat}, RdfsEval g u lk acc o2 → o1 = o2 := by
  intro u lk acc o1 h1
  induction h1 with
  | @doneE u lk acc hfind =>
    intro o2 h2
    cases h2 with
    | doneE _ => rfl
    | stepE hfind2 _ _ =>
      rw [hfind] at hfind2
      exact absurd (Option.some.inj hfind2) (by simp)
  | @stepE u v lk lk2 acc acc2 out hfind hinner houter ih_inner ih_outer =>
    intro o2 h2
    cases h2 with
    | doneE hfind2 =>
      rw [hfind] at hfind2
      exact absurd (Option.some.inj hfind2) (by simp)
    | @stepE _ v' _ lk2' _ acc2' _ hfind2 hinner2 houter2 =>
      obtain rfl : v = v' := by
        rw [hfind] at hfind2
        exact Option.some.inj (Option.some.inj hfind2)
      obtain ⟨h1, h2⟩ : lk2 = lk2' ∧ acc2 = acc2' := by
        have := ih_inner hinner2
        exact ⟨congrArg Prod.fst this, congrArg Prod.snd this⟩
      subst h1
      subst h2
      exact ih_outer houter2

theorem rdfsEval_length {W : Type} (g : List (List (Nat × W))) :
    ∀ {u : Nat} {lk : List Bool} {acc : List Nat}
      {out : List Bool × List Nat}, RdfsEval g u lk acc out →
      out.1.length = lk.length := by
  intro u lk acc out h
  induction h with
  | doneE _ => rfl
  | stepE hfind hinner houter ih_inner ih_outer =>
    rw [ih_outer]
    simpa [List.length_set] using ih_inner

theorem rdfsEval_countFalse {W : Type} (g : List (List (Nat × W))) :
    ∀ {u : Nat} {lk : List Bool} {acc : List Nat}
      {out : List Bool × List Nat}, RdfsEval g u lk acc out →
      countFalse out.1 ≤ countFalse lk := by
  intro u lk acc out h
  induction h with
  | doneE _ => exact le_refl _
  | @stepE u v lk lk2 acc acc2 out hfind hinner houter ih_inner ih_outer =>
    have h1 : countFalse lk2 ≤ countFalse (lk.set v true) := by
      simpa using ih_inner
    have h2 := countFalse_set_le lk v
    calc countFalse out.1 ≤ countFalse lk2 := ih_outer
    _ ≤ countFalse lk := by omega

/-- The stack-based dfs loop simulates the naive recursive DFS: exploring
u to completion and then continuing with the rest of the stack is exactly
one run of the loop from the stack with u on top. -/
theorem rdfs_sim {W : Type} (g : List (List (Nat × W))) :
    ∀ {u : Nat} {lk : List Bool} {acc : List Nat}
      {out : List Bool × List Nat}, RdfsEval g u lk acc out →
      lk.length = g.length → u < g.length →
      ∀ {st : List Nat} {r : Outcome (List Nat)},
        DfsEval g st out.1 out.2 r → DfsEval g (u :: st) lk acc r := by
  intro u lk acc out h
  induction h with
  | @doneE u lk acc hfind =>
    intro hlen hu st r hst
    have hg : g[u]? = some g[u] := List.getElem?_eq_getElem hu
    rw [hg] at hfind
    exact DfsEval.popE hg hfind hst
  | @stepE u v lk lk2 acc acc2 out hfind hinner houter ih_inner ih_outer =>
    intro hlen hu st r hst
    obtain ⟨lkO, accO⟩ := out
    have hg : g[u]? = some g[u] := List.getElem?_eq_getElem hu
    rw [hg] at hfind
    simp only [Option.getD_some] at hfind
    obtain ⟨hvfalse, w, hw⟩ := dfsFind_eq_some_some g[u] lk v hfind
    have hvl : v < lk.length := (List.getElem?_eq_some.mp hvfalse).1
    have hlen2 : lk2.length = g.length := by
      have h1 : lk2.length = lk.length := by
        simpa [List.length_set] using rdfsEval_length g hinner
      omega
    have hmid : DfsEval g (u :: st) lk2 acc2 r := ih_outer hlen2 hu hst
    have hdeep : DfsEval g (v :: u :: st) (lk.set v true) (acc ++ [v]) r :=
      ih_inner (by rw [List.length_set]; exact hlen) (by omega) hmid
    exact DfsEval.pushE hg hfind hdeep

/-- The naive recursive DFS terminates on well-formed graphs. -/
theorem rdfs_total {W : Type} (g : List (List (Nat × W)))
    (hwf : ∀ l ∈ g, ∀ e ∈ l, e.1 < g.length) :
    ∀ (n : Nat) (lk : List Bool) (u : Nat) (acc : List Nat),
      countFalse lk ≤ n → lk.length = g.length → u < g.length →
      ∃ out, RdfsEval g u lk acc out := by
  intro n
  induction n with
  | zero =>
    intro lk u acc hcf hlen hu
    have hg : g[u]? = some g[u] := List.getElem?_eq_getElem hu
    cases hfind : dfsFind ((g[u]?).getD []) lk with
    | none =>
      obtain ⟨e, he, hb⟩ := dfsFind_eq_none _ lk hfind
      rw [hg] at he
      simp only [Option.getD_some] at he
      have := hwf g[u] (List.getElem?_mem hg) e he
      omega
    | some o =>
      cases o with
      | none => exact ⟨(lk, acc), RdfsEval.doneE hfind⟩
      | some v =>
        obtain ⟨hvfalse, _⟩ := dfsFind_eq_some_some _ lk v hfind
        have := countFalse_pos hvfalse
        omega
  | succ n ihn =>
    intro lk u acc hcf hlen hu
    have hg : g[u]? = some g[u] := List.getElem?_eq_getElem hu
    cases hfind : dfsFind ((g[u]?).getD []) lk with
    | none =>
      obtain ⟨e, he, hb⟩ := dfsFind_eq_none _ lk hfind
      rw [hg] at he
      simp only [Option.getD_some] at he
      have := hwf g[u] (List.getElem?_mem hg) e he
      omega
    | some o =>
      cases o with
      | none => exact ⟨(lk, acc), RdfsEval.doneE hfind⟩
      | some v =>
        obtain ⟨hvfalse, hvmem⟩ := dfsFind_eq_some_some _ lk v hfind
        have hvl : v < lk.length := (List.getElem?_eq_some.mp hvfalse).1
        have hcf2 := countFalse_set_true hvfalse
        obtain ⟨⟨lk2, acc2⟩, hinner⟩ :=
          ihn (lk.set v true) v (acc ++ [v]) (by omega)
            (by rw [List.length_set]; exact hlen) (by omega)
        have hcf3 : countFalse lk2 ≤ n := by
          have := rdfsEval_countFalse g hinner
          simp only at this
          omega
        obtain ⟨out, houter⟩ := ihn lk2 u acc2 hcf3
          (by
            have := rdfsEval_length g hinner
            simp only [List.length_set] at this
            rw [this]
            exact hlen) hu
        exact ⟨out, RdfsEval.stepE hfind hinner houter⟩

/-- C6: on a well-formed graph with a valid start, the explicit-stack dfs
produces exactly the discovery order of the (deterministic) naive
recursive DFS that always follows the first unvisited edge in stored
adjacency order. -/
theorem dfs_matches_recursive_dfs {W : Type} (g : Graph W) (s : Nat)
    (hwf : g.WF) (hs : s < g.graph.length) :
    ∃ (res : List Nat) (lkF : List Bool),
      RdfsEval g.graph s
        ((List.replicate g.graph.length false).set s true) [s] (lkF, res) ∧
      (∀ (lkF' : List Bool) (res' : List Nat),
        RdfsEval g.graph s
          ((List.replicate g.graph.length false).set s true) [s]
          (lkF', res') → lkF' = lkF ∧ res' = res) ∧
      g.dfs s = .ok res := by
  obtain ⟨⟨lkF, res⟩, hrd⟩ :=
    rdfs_total g.graph hwf (countFalse
        ((List.replicate g.graph.length false).set s true))
      ((List.replicate g.graph.length false).set s true) s [s]
      (le_refl _) (by simp) hs
  refine ⟨res, lkF, hrd, ?_, ?_⟩
  · intro lkF' res' h'
    have := rdfsEval_det g.graph h' hrd
    exact ⟨congrArg Prod.fst this, congrArg Prod.snd this⟩
  · obtain ⟨res2, hdfs, _⟩ := dfs_run g s hwf hs
    have heval : DfsEval g.graph [s]
        ((List.replicate g.graph.length false).set s true) [s] (.ok res) :=
      rdfs_sim g.graph hrd (by simp) hs (DfsEval.nilE lkF res)
    have hloop : dfsLoop g.graph (2 * g.graph.length + 1) [s]
        ((List.replicate g.graph.length false).set s true) [s] = .ok res2 := by
      simpa only [Graph.dfs, if_neg (by omega : ¬ s ≥ g.graph.length)]
        using hdfs
    rcases dfsEval_agrees g.graph heval _ _ hloop with h | h
    · exact Outcome.noConfusion h
    · obtain rfl : res2 = res := by injection h
      exact hdfs

theorem dfs_matches_recursive_dfs_witness :
    ∃ (res : List Nat) (lkF : List Bool),
      RdfsEval TEST_GRAPH_UNWEIGHTED.graph 0
        ((List.replicate TEST_GRAPH_UNWEIGHTED.graph.length false).set 0
          true) [0] (lkF, res) ∧
      (∀ (lkF' : List Bool) (res' : List Nat),
        RdfsEval TEST_GRAPH_UNWEIGHTED.graph 0
          ((List.replicate TEST_GRAPH_UNWEIGHTED.graph.length false).set 0
            true) [0] (lkF', res') → lkF' = lkF ∧ res' = res) ∧
      TEST_GRAPH_UNWEIGHTED.dfs 0 = .ok res :=
  dfs_matches_recursive_dfs TEST_GRAPH_UNWEIGHTED 0 (by decide) (by decide)


/-! ### Conditional run characterization (no well-formedness needed) -/

theorem bfsLoop_ok {W : Type} (g : List (List (Nat × W))) (s : Nat) :
    ∀ (fuel : Nat) (q : List Nat) (lk : List Bool) (acc res : List Nat),
      bfsLoop g fuel q lk acc = .ok res →
      lk.length = g.length →
      (∀ v : Nat, v ∈ acc ↔ lk[v]? = some true) →
      (∀ v ∈ q, v ∈ acc) →
      (∀ v ∈ acc, ReachU (⟨g⟩ : Graph W) s v) →
      (∀ u : Nat, lk[u]? = some true → u ∈ q ∨
        ∀ l, g[u]? = some l → ∀ e ∈ l, lk[e.1]? = some true) →
      ∃ lkF : List Bool,
        lkF.length = g.length ∧
        (∃ ext, res = acc ++ ext) ∧
        (∀ v ∈ res, ReachU (⟨g⟩ : Graph W) s v) ∧
        (∀ v : Nat, v ∈ res ↔ lkF[v]? = some true) ∧
        (∀ u : Nat, lkF[u]? = some true →
          ∀ l, g[u]? = some l → ∀ e ∈ l, lkF[e.1]? = some true) := by
  intro fuel
  induction fuel with
  | zero =>
    intro q lk acc res hrun hlen hsync hqacc hreach hclose
    cases q with
    | nil =>
      obtain rfl : acc = res := by
        simpa [bfsLoop] using hrun
      refine ⟨lk, hlen, ⟨[], by simp⟩, hreach, hsync, ?_⟩
      intro u hu
      rcases hclose u hu with h | h
      · cases h
      · exact h
    | cons node rest => simp [bfsLoop] at hrun
  | succ fuel ih =>
    intro q lk acc res hrun hlen hsync hqacc hreach hclose
    cases q with
    | nil =>
      obtain rfl : acc = res := by
        simpa [bfsLoop] using hrun
      refine ⟨lk, hlen, ⟨[], by simp⟩, hreach, hsync, ?_⟩
      intro u hu
      rcases hclose u hu with h | h
      · cases h
      · exact h
    | cons node rest =>
      have hnodeacc : node ∈ acc := hqacc node (List.mem_cons_self _ _)
      cases hg : g[node]? with
      | none =>
        have hstep : bfsLoop g (fuel + 1) (node :: rest) lk acc =
            bfsLoop g fuel rest lk acc := by
          simp only [bfsLoop, hg]
        rw [hstep] at hrun
        refine ih rest lk acc res hrun hlen hsync
          (fun v hv => hqacc v (List.mem_cons_of_mem _ hv)) hreach ?_
        intro u hu
        rcases hclose u hu with hq | hvis
        · rcases List.mem_cons.mp hq with rfl | hq'
          · right
            intro l hl
            rw [hg] at hl
            exact Option.noConfusion hl
          · exact Or.inl hq'
        · exact Or.inr hvis
      | some neigh =>
        cases hs' : bfsScan neigh lk acc rest with
        | none =>
          have hstep : bfsLoop g (fuel + 1) (node :: rest) lk acc =
              .panicked := by
            simp only [bfsLoop, hg, hs']
          rw [hstep] at hrun
          exact Outcome.noConfusion hrun
        | some t =>
          obtain ⟨lk2, acc2, q2⟩ := t
          have hstep : bfsLoop g (fuel + 1) (node :: rest) lk acc =
              bfsLoop g fuel q2 lk2 acc2 := by
            simp only [bfsLoop, hg, hs']
          rw [hstep] at hrun
          obtain ⟨news, hacc2, hq2, hlen2, hcount, hmono, hnews, hnewsnd,
            hconv, hall⟩ := bfsScan_spec neigh lk acc rest lk2 acc2 q2 hs'
          obtain ⟨lkF, hlenF, ⟨ext, hext⟩, hreachF, hsyncF, hcloseF⟩ :=
            ih q2 lk2 acc2 res hrun (hlen2.trans hlen)
              (by
                intro v
                constructor
                · intro hv
                  rw [hacc2] at hv
                  rcases List.mem_append.mp hv with hv' | hv'
                  · exact hmono v ((hsync v).mp hv')
                  · obtain ⟨w, hw⟩ := (hnews v hv').2
                    exact hall (v, w) hw
                · intro hv
                  rw [hacc2]
                  rcases hconv v hv with hT | hN
                  · exact List.mem_append_left _ ((hsync v).mpr hT)
                  · exact List.mem_append_right _ hN)
              (by
                intro v hv
                rw [hq2] at hv
                rw [hacc2]
                rcases List.mem_append.mp hv with hv' | hv'
                · exact List.mem_append_left _
                    (hqacc v (List.mem_cons_of_mem _ hv'))
                · exact List.mem_append_right _ hv')
              (by
                intro v hv
                rw [hacc2] at hv
                rcases List.mem_append.mp hv with hv' | hv'
                · exact hreach v hv'
                · obtain ⟨w, hw⟩ := (hnews v hv').2
                  refine ReachU.step (hreach node hnodeacc) ⟨w, ?_⟩
                  simpa [Graph.adjOf, hg] using hw)
              (by
                intro u hu
                rcases hconv u hu with hT | hN
                · rcases hclose u hT with hq | hvis
                  · rcases List.mem_cons.mp hq with rfl | hq'
                    · right
                      intro l hl e he
                      rw [hg] at hl
                      obtain rfl : neigh = l := by injection hl
                      exact hall e he
                    · left
                      rw [hq2]
                      exact List.mem_append_left _ hq'
                  · right
                    intro l hl e he
                    exact hmono e.1 (hvis l hl e he)
                · left
                  rw [hq2]
                  exact List.mem_append_right _ hN)
          refine ⟨lkF, hlenF, ⟨news ++ ext, ?_⟩, hreachF, hsyncF, hcloseF⟩
          rw [hext, hacc2, List.append_assoc]

theorem dfsLoop_ok {W : Type} (g : List (List (Nat × W))) (s : Nat) :
    ∀ (fuel : Nat) (st : List Nat) (lk : List Bool) (acc res : List Nat),
      dfsLoop g fuel st lk acc = .ok res →
      lk.length = g.length →
      (∀ v : Nat, v ∈ acc ↔ lk[v]? = some true) →
      (∀ v ∈ st, v ∈ acc) →
      (∀ v ∈ acc, ReachU (⟨g⟩ : Graph W) s v) →
      (∀ u : Nat, lk[u]? = some true → u ∈ st ∨
        ∀ l, g[u]? = some l → ∀ e ∈ l, lk[e.1]? = some true) →
      ∃ lkF : List Bool,
        lkF.length = g.length ∧
        (∃ ext, res = acc ++ ext) ∧
        (∀ v ∈ res, ReachU (⟨g⟩ : Graph W) s v) ∧
        (∀ v : Nat, v ∈ res ↔ lkF[v]? = some true) ∧
        (∀ u : Nat, lkF[u]? = some true →
          ∀ l, g[u]? = some l → ∀ e ∈ l, lkF[e.1]? = some true) := by
  intro fuel
  induction fuel with
  | zero =>
    intro st lk acc res hrun hlen hsync hstacc hreach hclose
    cases st with
    | nil =>
      obtain rfl : acc = res := by
        simpa [dfsLoop] using hrun
      refine ⟨lk, hlen, ⟨[], by simp⟩, hreach, hsync, ?_⟩
      intro u hu
      rcases hclose u hu with h | h
      · cases h
      · exact h
    | cons node rest => simp [dfsLoop] at hrun
  | succ fuel ih =>
    intro st lk acc res hrun hlen hsync hstacc hreach hclose
    cases st with
    | nil =>
      obtain rfl : acc = res := by
        simpa [dfsLoop] using hrun
      refine ⟨lk, hlen, ⟨[], by simp⟩, hreach, hsync, ?_⟩
      intro u hu
      rcases hclose u hu with h | h
      · cases h
      · exact h
    | cons node rest =>
      have hnodeacc : node ∈ acc := hstacc node (List.mem_cons_self _ _)
      cases hg : g[node]? with
      | none =>
        have hstep : dfsLoop g (fuel + 1) (node :: rest) lk acc =
            dfsLoop g fuel (node :: rest) lk acc := by
          simp only [dfsLoop, hg]
        rw [hstep] at hrun
        exact ih (node :: rest) lk acc res hrun hlen hsync hstacc hreach
          hclose
      | some neigh =>
        cases hfind : dfsFind neigh lk with
        | none =>
          have hstep : dfsLoop g (fuel + 1) (node :: rest) lk acc =
              .panicked := by
            simp only [dfsLoop, hg, hfind]
          rw [hstep] at hrun
          exact Outcome.noConfusion hrun
        | some o =>
          cases o with
          | none =>
            have hstep : dfsLoop g (fuel + 1) (node :: rest) lk acc =
                dfsLoop g fuel rest lk acc := by
              simp only [dfsLoop, hg, hfind]
            rw [hstep] at hrun
            have hallmk := dfsFind_eq_some_none neigh lk hfind
            refine ih rest lk acc res hrun hlen hsync
              (fun v hv => hstacc v (List.mem_cons_of_mem _ hv)) hreach ?_
            intro u hu
            rcases hclose u hu with hq | hvis
            · rcases List.mem_cons.mp hq with rfl | hq'
              · right
                intro l hl e he
                rw [hg] at hl
                obtain rfl : neigh = l := by injection hl
                exact hallmk e he
              · exact Or.inl hq'
            · exact Or.inr hvis
          | some v =>
            obtain ⟨hvfalse, w, hw⟩ := dfsFind_eq_some_some neigh lk v hfind
            have hvlt : v < lk.length := (List.getElem?_eq_some.mp hvfalse).1
            have hvset : (lk.set v true)[v]? = some true :=
              List.getElem?_set_eq_of_lt true hvlt
            have hstep : dfsLoop g (fuel + 1) (node :: rest) lk acc =
                dfsLoop g fuel (v :: node :: rest) (lk.set v true)
                  (acc ++ [v]) := by
              simp only [dfsLoop, hg, hfind]
            rw [hstep] at hrun
            obtain ⟨lkF, hlenF, ⟨ext, hext⟩, hreachF, hsyncF, hcloseF⟩ :=
              ih (v :: node :: rest) (lk.set v true) (acc ++ [v]) res hrun
                (by rw [List.length_set]; exact hlen)
                (by
                  intro x
                  constructor
                  · intro hx
                    rcases List.mem_append.mp hx with hx' | hx'
                    · exact getElem?_set_true_of_true ((hsync x).mp hx')
                    · obtain rfl : x = v := by simpa using hx'
                      exact hvset
                  · intro hx
                    rcases eq_or_ne x v with rfl | hne
                    · exact List.mem_append_right _ (List.mem_cons_self _ _)
                    · rw [List.getElem?_set_ne (Ne.symm hne)] at hx
                      exact List.mem_append_left _ ((hsync x).mpr hx))
                (by
                  intro x hx
                  rcases List.mem_cons.mp hx with rfl | hx'
                  · exact List.mem_append_right _ (List.mem_cons_self _ _)
                  · exact List.mem_append_left _ (hstacc x hx'))
                (by
                  intro x hx
                  rcases List.mem_append.mp hx with hx' | hx'
                  · exact hreach x hx'
                  · obtain rfl : x = v := by simpa using hx'
                    refine ReachU.step (hreach node hnodeacc) ⟨w, ?_⟩
                    simpa [Graph.adjOf, hg] using hw)
                (by
                  intro u hu
                  rcases eq_or_ne u v with rfl | hne
                  · exact Or.inl (List.mem_cons_self _ _)
                  · rw [List.getElem?_set_ne (Ne.symm hne)] at hu
                    rcases hclose u hu with hq | hvis
                    · exact Or.inl (List.mem_cons_of_mem _ hq)
                    · right
                      intro l hl e he
                      exact getElem?_set_true_of_true (hvis l hl e he))
            refine ⟨lkF, hlenF, ⟨v :: ext, ?_⟩, hreachF, hsyncF, hcloseF⟩
            rw [hext, List.append_assoc]
            rfl

/-- Whenever bfs returns a list at all, that list is exactly the set of
nodes reachable from the start (no well-formedness assumption is needed:
a consumed out-of-range target would have aborted the call instead). -/
theorem bfs_ok_reach {W : Type} (g : Graph W) (s : Nat) (res : List Nat)
    (h : g.bfs s = .ok res) : ∀ v : Nat, v ∈ res ↔ ReachU g s v := by
  by_cases hge : s ≥ g.graph.length
  · simp only [Graph.bfs, if_pos hge] at h
    exact Outcome.noConfusion h
  · have hs : s < g.graph.length := by omega
    simp only [Graph.bfs, if_neg hge] at h
    obtain ⟨lkF, hlenF, ⟨ext, hext⟩, hreach, hsync, hclose⟩ :=
      bfsLoop_ok g.graph s _ _ _ _ res h (by simp)
        (by
          intro v
          rw [init_lookup_spec hs v]
          simp)
        (by intro v hv; exact hv)
        (by
          intro v hv
          obtain rfl : v = s := by simpa using hv
          exact ReachU.base)
        (by
          intro u hu
          left
          simpa using (init_lookup_spec hs u).mp hu)
    intro v
    constructor
    · exact hreach v
    · intro hr
      refine (hsync v).mpr
        (marked_of_reachU g.graph s lkF hlenF hclose ?_ v hr)
      refine (hsync s).mp ?_
      rw [hext]
      exact List.mem_append_left _ (List.mem_cons_self _ _)

/-- Whenever dfs returns a list at all, that list is exactly the set of
nodes reachable from the start. -/
theorem dfs_ok_reach {W : Type} (g : Graph W) (s : Nat) (res : List Nat)
    (h : g.dfs s = .ok res) : ∀ v : Nat, v ∈ res ↔ ReachU g s v := by
  by_cases hge : s ≥ g.graph.length
  · simp only [Graph.dfs, if_pos hge] at h
    exact Outcome.noConfusion h
  · have hs : s < g.graph.length := by omega
    simp only [Graph.dfs, if_neg hge] at h
    obtain ⟨lkF, hlenF, ⟨ext, hext⟩, hreach, hsync, hclose⟩ :=
      dfsLoop_ok g.graph s _ _ _ _ res h (by simp)
        (by
          intro v
          rw [init_lookup_spec hs v]
          simp)
        (by intro v hv; exact hv)
        (by
          intro v hv
          obtain rfl : v = s := by simpa using hv
          exact ReachU.base)
        (by
          intro u hu
          left
          simpa using (init_lookup_spec hs u).mp hu)
    intro v
    constructor
    · exact hreach v
    · intro hr
      refine (hsync v).mpr
        (marked_of_reachU g.graph s lkF hlenF hclose ?_ v hr)
      refine (hsync s).mp ?_
      rw [hext]
      exact List.mem_append_left _ (List.mem_cons_self _ _)

/-- C2: for every graph and starting node, whenever bfs and dfs both
return node sequences, those sequences have exactly the same members
(each is the set of nodes reachable from the start). -/
theorem bfs_dfs_same_reachable_set {W : Type} (g : Graph W) (s : Nat)
    (rb rd : List Nat) (hb : g.bfs s = .ok rb) (hd : g.dfs s = .ok rd) :
    ∀ v : Nat, v ∈ rb ↔ v ∈ rd := by
  intro v
  exact (bfs_ok_reach g s rb hb v).trans (dfs_ok_reach g s rd hd v).symm

theorem bfs_dfs_same_reachable_set_witness :
    (5 : Nat) ∈ [0, 1, 2, 5] ↔ (5 : Nat) ∈ [0, 1, 5, 2] :=
  bfs_dfs_same_reachable_set TEST_GRAPH_UNWEIGHTED 0 [0, 1, 2, 5]
    [0, 1, 5, 2] (by decide) (by decide) 5
